import Mathlib

/-!
Verification of the chat widget in `public/script.js`.

The file embeds the two components of the script:

* the markup formatter `formatMessageText`, a chain of regex replacements,
  modelled pass by pass on `List Char` (each pass mirrors one
  `text.replace(...)` call, with JavaScript regex semantics made explicit:
  leftmost match, lazy or greedy quantifiers as in the pattern, `m`/`s`
  flags as line splitting or newline admission);

* the form submit handler, modelled as a state-passing function over an
  explicit transport-outcome datatype.

All definitions are executable; theorems about concrete inputs evaluate.
-/

/-- JavaScript `\s` for the characters this program can encounter:
space, tab, line feed, vertical tab, form feed, carriage return. -/
def isSpaceJS (c : Char) : Bool :=
  c = ' ' ∨ c = '\t' ∨ c = '\n' ∨ c = '\x0b' ∨ c = '\x0c' ∨ c = '\r'

/-- Characters the escaping stage rewrites. -/
def specials : List Char := ['&', '<', '>']

/-! ## Escaping stage

`text.replace(/&/g,'&amp;').replace(/</g,'&lt;').replace(/>/g,'&gt;')`:
three sequential global single-character replacements.  A global
single-character replacement is a `flatMap`; the replacement text is
inserted verbatim and not rescanned by the same pass. -/

def escAmp (l : List Char) : List Char :=
  l.flatMap (fun c => if c = '&' then "&amp;".toList else [c])

def escLt (l : List Char) : List Char :=
  l.flatMap (fun c => if c = '<' then "&lt;".toList else [c])

def escGt (l : List Char) : List Char :=
  l.flatMap (fun c => if c = '>' then "&gt;".toList else [c])

def escapeAll (l : List Char) : List Char := escGt (escLt (escAmp l))

/-! ## Line splitting for `m`-flagged line-anchored patterns

With the `m` flag, `^` matches at the string start and after every `'\n'`,
and `$` before every `'\n'` and at the end; `.` never matches `'\n'`.  A
pattern of the form `^...$` in which no part can consume `'\n'` therefore
rewrites each newline-separated line independently. -/

def splitNl : List Char → List (List Char)
  | [] => [[]]
  | c :: cs =>
    match splitNl cs with
    | [] => [[c]]
    | p :: ps => if c = '\n' then [] :: p :: ps else (c :: p) :: ps

def joinNl : List (List Char) → List Char
  | [] => []
  | [p] => p
  | p :: ps => p ++ '\n' :: joinNl ps

def mapLines (f : List Char → List Char) (l : List Char) : List Char :=
  joinNl ((splitNl l).map f)

/-! ## Headings

`text.replace(/^### (.*)$/gm, '<h3>$1</h3>')` and the `##`/`#` variants.
The literal prefix and the newline-free `(.*)` keep each match inside one
line, so this is a per-line rewrite. -/

def headingLine (pre tagO tagC : List Char) (line : List Char) : List Char :=
  if pre.isPrefixOf line then tagO ++ line.drop pre.length ++ tagC else line

def h3Pass (l : List Char) : List Char :=
  mapLines (headingLine "### ".toList "<h3>".toList "</h3>".toList) l

def h2Pass (l : List Char) : List Char :=
  mapLines (headingLine "## ".toList "<h2>".toList "</h2>".toList) l

def h1Pass (l : List Char) : List Char :=
  mapLines (headingLine "# ".toList "<h1>".toList "</h1>".toList) l

/-! ## Lazy delimited spans

Bold `/\*\*(.*?)\*\*/g`, italics `/\*(.*?)\*/g`, inline code
`/`(.*?)`/g` and fenced blocks ``/```([\s\S]*?)```/g`` all have the shape
`open (lazy content) close` where open and close are runs of one
character.  The engine takes the leftmost position where the open
delimiter matches and the nearest following close delimiter; `(.*?)`
cannot cross `'\n'`, `([\s\S]*?)` can.  On failure the scan advances one
character. -/

def findClose (close : List Char) (allowNl : Bool) :
    List Char → Option (List Char × List Char)
  | [] => none
  | c :: cs =>
    if close.isPrefixOf (c :: cs) then some ([], (c :: cs).drop close.length)
    else if c = '\n' ∧ ¬allowNl then none
    else (findClose close allowNl cs).map (fun p => (c :: p.1, p.2))

/-- Leftmost span match: returns the text before the match, the lazy
content between the delimiters, and the text after the close delimiter. -/
def findSpan (opn close : List Char) (allowNl : Bool) :
    List Char → Option (List Char × List Char × List Char)
  | [] => none
  | c :: cs =>
    if opn.isPrefixOf (c :: cs) then
      match findClose close allowNl ((c :: cs).drop opn.length) with
      | some (content, rest) => some ([], content, rest)
      | none => (findSpan opn close allowNl cs).map (fun p => (c :: p.1, p.2))
    else (findSpan opn close allowNl cs).map (fun p => (c :: p.1, p.2))

def spanGo (opn close : List Char) (allowNl : Bool) (tagO tagC : List Char) :
    Nat → List Char → List Char
  | 0, l => l
  | fuel + 1, l =>
    match findSpan opn close allowNl l with
    | none => l
    | some (pre, content, rest) =>
        pre ++ tagO ++ content ++ tagC ++ spanGo opn close allowNl tagO tagC fuel rest

def spanPass (opn close : List Char) (allowNl : Bool) (tagO tagC : List Char)
    (l : List Char) : List Char :=
  spanGo opn close allowNl tagO tagC l.length l

def boldPass (l : List Char) : List Char :=
  spanPass "**".toList "**".toList false "<strong>".toList "</strong>".toList l

def italicPass (l : List Char) : List Char :=
  spanPass "*".toList "*".toList false "<em>".toList "</em>".toList l

def inlineCodePass (l : List Char) : List Char :=
  spanPass "`".toList "`".toList false "<code>".toList "</code>".toList l

def codeBlockPass (l : List Char) : List Char :=
  spanPass "```".toList "```".toList true "<pre><code>".toList "</code></pre>".toList l

/-! ## Line breaks: `text.replace(/\n/g, '<br>')` -/

def brPass (l : List Char) : List Char :=
  l.flatMap (fun c => if c = '\n' then "<br>".toList else [c])

/-! ## List items

`/^\s*[-*]\s+(.*)$/gm` and `/^\s*\d+\.\s+(.*)$/gm`.  These stages run
after the `<br>` stage, so the subject contains no `'\n'` and the `\s`
runs cannot cross a line boundary; the per-line model below is exact for
every string this pipeline feeds them. -/

def bulletLine (line : List Char) : List Char :=
  match line.dropWhile isSpaceJS with
  | m :: r2 =>
    if m = '-' ∨ m = '*' then
      match r2 with
      | c2 :: _ =>
        if isSpaceJS c2 then
          "<li>".toList ++ r2.dropWhile isSpaceJS ++ "</li>".toList
        else line
      | [] => line
    else line
  | [] => line

def bulletItemsPass (l : List Char) : List Char := mapLines bulletLine l

def numberLine (line : List Char) : List Char :=
  let r1 := line.dropWhile isSpaceJS
  let digits := r1.takeWhile Char.isDigit
  if digits.isEmpty then line
  else
    match r1.dropWhile Char.isDigit with
    | '.' :: r3 =>
      match r3 with
      | c2 :: _ =>
        if isSpaceJS c2 then
          "<li>".toList ++ r3.dropWhile isSpaceJS ++ "</li>".toList
        else line
      | [] => line
    | _ => line

def numberItemsPass (l : List Char) : List Char := mapLines numberLine l

/-! ## List wrapping

`text.replace(/(<li>.*<\/li>)/gms, '<ul>$1</ul>')` (and the `<ol>` twin).
With `s`, `.` also matches `'\n'`, so the greedy `.*` makes the single
match run from the leftmost `<li>` to the rightmost `</li>` that starts
after it; the global scan finds no further match because no `</li>`
remains to the right. -/

def findSub (pat : List Char) : List Char → Option (List Char × List Char)
  | [] => if pat.isPrefixOf ([] : List Char) then some ([], []) else none
  | c :: cs =>
    if pat.isPrefixOf (c :: cs) then some ([], c :: cs)
    else (findSub pat cs).map (fun p => (c :: p.1, p.2))

def findLastSub (pat : List Char) : List Char → Option (List Char × List Char)
  | [] => if pat.isPrefixOf ([] : List Char) then some ([], []) else none
  | c :: cs =>
    match findLastSub pat cs with
    | some (p, r) => some (c :: p, r)
    | none => if pat.isPrefixOf (c :: cs) then some ([], c :: cs) else none

def wrapPass (wo wc : List Char) (l : List Char) : List Char :=
  match findSub "<li>".toList l with
  | none => l
  | some (pre, rest) =>
    match findLastSub "</li>".toList (rest.drop 4) with
    | none => l
    | some (mid, rest2) =>
        pre ++ wo ++ "<li>".toList ++ mid ++ "</li>".toList ++ wc ++ rest2.drop 5

def ulWrapPass (l : List Char) : List Char := wrapPass "<ul>".toList "</ul>".toList l

def olWrapPass (l : List Char) : List Char := wrapPass "<ol>".toList "</ol>".toList l

/-! ## Links

`/\[([^\]]+)\]\((https?:\/\/[^\s)]+)\)/g` replaced by
`<a href="$2" target="_blank" rel="noopener noreferrer">$1</a>`.
The label runs to the first `']'`, the URL must start `http://` or
`https://` and then takes the maximal run of characters that are neither
whitespace nor `')'`, and a literal `')'` must follow. -/

def isUrlChar (c : Char) : Bool := ¬ isSpaceJS c ∧ c ≠ ')'

def aopenChars : List Char := "<a href=\"".toList

def amidChars : List Char := "\" target=\"_blank\" rel=\"noopener noreferrer\">".toList

def anchorFor (label url : List Char) : List Char :=
  aopenChars ++ url ++ amidChars ++ label ++ "</a>".toList

/-- Attempt the link pattern just after a `'['`; returns label, url and
the rest of the input after the closing `')'`. -/
def parseLink (cs : List Char) : Option (List Char × List Char × List Char) :=
  let label := cs.takeWhile (fun c => c ≠ ']')
  if label.isEmpty then none
  else
    match cs.dropWhile (fun c => c ≠ ']') with
    | ']' :: '(' :: r3 =>
      let schemeLen : Option Nat :=
        if "http://".toList.isPrefixOf r3 then some 7
        else if "https://".toList.isPrefixOf r3 then some 8
        else none
      match schemeLen with
      | none => none
      | some k =>
        let tail := (r3.drop k).takeWhile isUrlChar
        if tail.isEmpty then none
        else
          match (r3.drop k).dropWhile isUrlChar with
          | ')' :: r6 => some (label, r3.take k ++ tail, r6)
          | _ => none
    | _ => none

def findLink : List Char → Option (List Char × List Char × List Char × List Char)
  | [] => none
  | c :: cs =>
    if c = '[' then
      match parseLink cs with
      | some (label, url, rest) => some ([], label, url, rest)
      | none => (findLink cs).map (fun p => (c :: p.1, p.2.1, p.2.2.1, p.2.2.2))
    else (findLink cs).map (fun p => (c :: p.1, p.2.1, p.2.2.1, p.2.2.2))

def linkGo : Nat → List Char → List Char
  | 0, l => l
  | fuel + 1, l =>
    match findLink l with
    | none => l
    | some (pre, label, url, rest) => pre ++ anchorFor label url ++ linkGo fuel rest

def replaceLinks (l : List Char) : List Char := linkGo l.length l

/-! ## Paragraphs

`/^(?!<ul>|<ol>|<li>|<pre>|<code>|<strong>|<em>|<a>)(.+)$/gm`: a nonempty
line not starting with one of the eight listed literals is wrapped in a
paragraph element.  Note the list contains the three-character literal
`<a>` and no heading tags. -/

def paraPrefixes : List (List Char) :=
  ["<ul>".toList, "<ol>".toList, "<li>".toList, "<pre>".toList,
   "<code>".toList, "<strong>".toList, "<em>".toList, "<a>".toList]

def paragraphLine (line : List Char) : List Char :=
  if line.isEmpty then line
  else if paraPrefixes.any (fun p => p.isPrefixOf line) then line
  else "<p>".toList ++ line ++ "</p>".toList

def paragraphPass (l : List Char) : List Char := mapLines paragraphLine l

/-! ## Whitespace normalization

`text.replace(/\s+/g, ' ')` collapses every maximal whitespace run to a
single space, then `.trim()` removes leading and trailing whitespace. -/

def collapseGo (prevWs : Bool) : List Char → List Char
  | [] => []
  | c :: cs =>
    if isSpaceJS c then
      if prevWs then collapseGo true cs else ' ' :: collapseGo true cs
    else c :: collapseGo false cs

def collapseWs (l : List Char) : List Char := collapseGo false l

/-- Drop trailing whitespace (the right half of `String.prototype.trim`). -/
def dropTrailWs : List Char → List Char
  | [] => []
  | c :: cs =>
    match dropTrailWs cs with
    | [] => if isSpaceJS c then [] else [c]
    | t => c :: t

def jsTrim (l : List Char) : List Char := dropTrailWs (l.dropWhile isSpaceJS)

/-! ## The formatter -/

def fmtList (l : List Char) : List Char :=
  jsTrim (collapseWs (paragraphPass (replaceLinks (olWrapPass (numberItemsPass
    (ulWrapPass (bulletItemsPass (brPass (codeBlockPass (inlineCodePass
      (italicPass (boldPass (h1Pass (h2Pass (h3Pass (escapeAll l))))))))))))))))

/-- `formatMessageText` from `public/script.js`: the falsy guard
`if (!text) return ''` followed by the replacement pipeline. -/
def formatMessageText (s : String) : String :=
  if s = "" then "" else (fmtList s.toList).asString

/-! ## Conversation controller

The submit handler in `public/script.js`, modelled as a state-passing
function.  The DOM pieces become explicit state: the message log (each
entry records sender, raw text and the `dataset.temporary` pending flag),
the two `disabled` flags, the input field value and the focus flag.  The
single `fetch` exchange is summarised by a `FetchResult` describing what
the environment did: rejection, non-2xx status with the parse result of
the error body, or 2xx with the parse result of the success body.
JavaScript string truthiness (`""` is falsy) is modelled explicitly. -/

inductive Sender where
  | user
  | bot
deriving DecidableEq, Repr

structure ChatMsg where
  sender : Sender
  text : String
  pending : Bool
deriving DecidableEq, Repr

structure ChatState where
  log : List ChatMsg
  inputDisabled : Bool
  sendDisabled : Bool
  inputValue : String
  focused : Bool
deriving DecidableEq, Repr

/-- Parsed error body: `errorData.error?.message` and `errorData.message`. -/
structure ErrBody where
  errMsg : Option String
  msg : Option String
deriving DecidableEq, Repr

/-- Parsed success body: the `result` field, if present. -/
structure SuccBody where
  result : Option String
deriving DecidableEq, Repr

inductive FetchResult where
  /-- `fetch` rejected (network failure); carries the rejection message. -/
  | networkError (reason : String)
  /-- `response.ok` false: the status, and the JSON parse attempt of the
  error body (`none` when `response.json()` threw). -/
  | httpErr (status : Nat) (body : Option ErrBody)
  /-- `response.ok` true: the JSON parse attempt of the body
  (`none` when `response.json()` threw). -/
  | success (body : Option SuccBody)
deriving DecidableEq, Repr

structure ApiRequest where
  method : String
  path : String
  contentType : String
  messages : List (String × String)
deriving DecidableEq, Repr

structure SubmitResult where
  state : ChatState
  request : Option ApiRequest
  consoleLogs : List String
deriving DecidableEq, Repr

/-- JavaScript `a || b` for an optional string `a`: `a` when present and
truthy (nonempty), otherwise `b`. -/
def jsOr (a : Option String) (b : String) : String :=
  match a with
  | some s => if s = "" then b else s
  | none => b

/-- `userInput.value.trim()` with the same whitespace set as the
formatter's trim. -/
def jsTrimStr (s : String) : String := (jsTrim s.toList).asString

def failLiteral : String := "Failed to get response from server."

def sorryLiteral : String := "Sorry, no response received."

/-- `errorMessage` as computed in the non-2xx branch:
`errorData.error?.message || errorData.message || `HTTP error! status: ...``,
with the default kept when the body did not parse. -/
def errorMessageFor (status : Nat) (body : Option ErrBody) : String :=
  match body with
  | none => "HTTP error! status: " ++ toString status
  | some b => jsOr b.errMsg (jsOr b.msg ("HTTP error! status: " ++ toString status))

/-- Text shown in the pending bot entry and messages sent to
`console.error`, per outcome.  Success requires `data && data.result` to
be truthy; every thrown error reaches the catch handler, which displays
the fixed literal and logs the underlying message. -/
def outcomeText : FetchResult → String × List String
  | .networkError reason =>
      (failLiteral, ["Error sending message to API: " ++ reason])
  | .httpErr status body =>
      (failLiteral,
        (match body with
         | none => ["Failed to parse error response JSON"]
         | some _ => []) ++
        ["Error sending message to API: " ++ errorMessageFor status body])
  | .success none =>
      (failLiteral, ["Error sending message to API: invalid JSON body"])
  | .success (some b) =>
      match b.result with
      | some r => if r = "" then (sorryLiteral, []) else (r, [])
      | none => (sorryLiteral, [])

def mkRequest (content : String) : ApiRequest :=
  { method := "POST"
    path := "/api/chat"
    contentType := "application/json"
    messages := [("user", content)] }

/-- The handler up to the `await`: trim and reject empty input, append the
user entry, clear the field, disable the controls, append the pending
"Thinking..." bot entry, and build the request. -/
def issuePhase (st : ChatState) : ChatState × Option ApiRequest :=
  let userMessage := jsTrimStr st.inputValue
  if userMessage = "" then (st, none)
  else
    ({ st with
        log := st.log ++ [⟨Sender.user, userMessage, false⟩,
                          ⟨Sender.bot, "Thinking...", true⟩]
        inputValue := ""
        inputDisabled := true
        sendDisabled := true },
     some (mkRequest userMessage))

/-- The handler after the response: overwrite the pending entry in place
(`replaceTemporaryMessage`) with the chosen text, then the finally block
re-enables both controls and restores focus. -/
def resolvePhase (st : ChatState) (outcome : FetchResult) : ChatState × List String :=
  ({ st with
      log := st.log.dropLast ++ [⟨Sender.bot, (outcomeText outcome).1, false⟩]
      inputDisabled := false
      sendDisabled := false
      focused := true },
   (outcomeText outcome).2)

/-- One complete submit interaction under a given transport outcome. -/
def submitHandler (st : ChatState) (outcome : FetchResult) : SubmitResult :=
  match (issuePhase st).2 with
  | none => ⟨(issuePhase st).1, none, []⟩
  | some r => ⟨(resolvePhase (issuePhase st).1 outcome).1, some r,
      (resolvePhase (issuePhase st).1 outcome).2⟩

def pendingCount (log : List ChatMsg) : Nat := (log.filter (·.pending)).length

def initState : ChatState :=
  { log := [], inputDisabled := false, sendDisabled := false
    inputValue := "", focused := false }

/-- Steps of the controller.  A submit event can only fire while the
input control is enabled — a disabled input cannot receive the keystrokes
or the click that dispatch the form's submit event — and a response can
only arrive while a request is outstanding, which is exactly when the
controls are disabled. -/
inductive CtrlStep : ChatState → ChatState → Prop
  | issue (st : ChatState) (input : String) (h : st.inputDisabled = false) :
      CtrlStep st (issuePhase { st with inputValue := input }).1
  | resolve (st : ChatState) (outcome : FetchResult) (h : st.inputDisabled = true) :
      CtrlStep st (resolvePhase st outcome).1

inductive Reach : ChatState → Prop
  | init : Reach initState
  | step {st st' : ChatState} : Reach st → CtrlStep st st' → Reach st'

/-! ## Output shape invariant

Every string the pipeline produces decomposes into plain characters
(never `&`, `<`, `>`), the three entities the escaping stage inserts, the
fixed tags the markup stages insert, and, after the link stage, anchor
openings of the shape `<a href="` url `" target="_blank" rel="noopener
noreferrer">`.  The flag records whether anchors may occur (they exist
only from the link stage onwards). -/

def entityList : List (List Char) :=
  ["&amp;".toList, "&lt;".toList, "&gt;".toList]

def tagList : List (List Char) :=
  ["<h1>".toList, "</h1>".toList, "<h2>".toList, "</h2>".toList,
   "<h3>".toList, "</h3>".toList, "<strong>".toList, "</strong>".toList,
   "<em>".toList, "</em>".toList, "<code>".toList, "</code>".toList,
   "<pre>".toList, "</pre>".toList, "<br>".toList, "<li>".toList,
   "</li>".toList, "<ul>".toList, "</ul>".toList, "<ol>".toList,
   "</ol>".toList, "<p>".toList, "</p>".toList, "</a>".toList]

inductive Safe : Bool → List Char → Prop
  | nil {flag : Bool} : Safe flag []
  | chr {flag : Bool} (c : Char) (r : List Char) (h : c ∉ specials)
      (t : Safe flag r) : Safe flag (c :: r)
  | ent {flag : Bool} (e r : List Char) (he : e ∈ entityList)
      (t : Safe flag r) : Safe flag (e ++ r)
  | tag {flag : Bool} (t r : List Char) (ht : t ∈ tagList)
      (tr : Safe flag r) : Safe flag (t ++ r)
  | anch (u r : List Char) (hu : Safe true u)
      (hw : ∀ c ∈ u, isSpaceJS c = false) (t : Safe true r) :
      Safe true (aopenChars ++ u ++ amidChars ++ r)

theorem isPrefixOf_exists {p l : List Char} :
    p.isPrefixOf l = true ↔ ∃ t, l = p ++ t := by
  induction p generalizing l with
  | nil => simp [List.isPrefixOf]
  | cons a as ih =>
    cases l with
    | nil => simp [List.isPrefixOf]
    | cons b bs =>
      simp only [List.isPrefixOf, Bool.and_eq_true, beq_iff_eq, ih,
        List.cons_append, List.cons.injEq]
      constructor
      · rintro ⟨rfl, t, rfl⟩; exact ⟨t, rfl, rfl⟩
      · rintro ⟨t, rfl, rfl⟩; exact ⟨rfl, t, rfl⟩

theorem ent_eq_cons {e : List Char} (he : e ∈ entityList) :
    ∃ e', e = '&' :: e' := by
  fin_cases he <;> exact ⟨_, rfl⟩

theorem tag_eq_cons {t : List Char} (ht : t ∈ tagList) :
    ∃ t', t = '<' :: t' := by
  fin_cases ht <;> exact ⟨_, rfl⟩

theorem aopen_eq_cons : aopenChars = '<' :: "a href=\"".toList := rfl

theorem Safe.mono {l : List Char} (h : Safe false l) : Safe true l := by
  generalize hf : false = flag at h
  induction h with
  | nil => exact .nil
  | chr c r hc _ ih => exact .chr c r hc (ih hf)
  | ent e r he _ ih => exact .ent e r he (ih hf)
  | tag t r ht _ ih => exact .tag t r ht (ih hf)
  | anch => cases hf

theorem safe_append {flag : Bool} {a b : List Char}
    (ha : Safe flag a) (hb : Safe flag b) : Safe flag (a ++ b) := by
  induction ha with
  | nil => simpa using hb
  | chr c r hc _ ih => exact .chr c (r ++ b) hc (ih hb)
  | ent e r he _ ih => rw [List.append_assoc]; exact .ent e (r ++ b) he (ih hb)
  | tag t r ht _ ih => rw [List.append_assoc]; exact .tag t (r ++ b) ht (ih hb)
  | anch u r hu hw _ ihu ihr =>
      have := Safe.anch u (r ++ b) hu hw (ihr hb)
      simpa [List.append_assoc] using this

theorem safe_ent_only {flag : Bool} {e : List Char} (he : e ∈ entityList) :
    Safe flag e := by
  have h2 : Safe flag (e ++ []) := Safe.ent e [] he .nil
  simpa using h2

theorem safe_tag_only {flag : Bool} {t : List Char} (ht : t ∈ tagList) :
    Safe flag t := by
  have h2 : Safe flag (t ++ []) := Safe.tag t [] ht .nil
  simpa using h2

/-- Inversion of the decomposition at the first atom. -/
theorem safe_inv {flag : Bool} {l : List Char} (h : Safe flag l) :
    l = [] ∨
    (∃ c r, l = c :: r ∧ c ∉ specials ∧ Safe flag r) ∨
    (∃ e r, e ∈ entityList ∧ l = e ++ r ∧ Safe flag r) ∨
    (∃ t r, t ∈ tagList ∧ l = t ++ r ∧ Safe flag r) ∨
    (∃ u r, flag = true ∧ Safe true u ∧ (∀ c ∈ u, isSpaceJS c = false) ∧
      l = aopenChars ++ u ++ amidChars ++ r ∧ Safe true r) := by
  cases h with
  | nil => exact Or.inl rfl
  | chr c r hc t => exact Or.inr (Or.inl ⟨c, r, rfl, hc, t⟩)
  | ent e r he t => exact Or.inr (Or.inr (Or.inl ⟨e, r, he, rfl, t⟩))
  | tag t r ht tr => exact Or.inr (Or.inr (Or.inr (Or.inl ⟨t, r, ht, rfl, tr⟩)))
  | anch u r hu hw t =>
      exact Or.inr (Or.inr (Or.inr (Or.inr ⟨u, r, rfl, hu, hw, rfl, t⟩)))

/-- A safe list that starts with a character other than `&` and `<` starts
with a plain-character atom, so its tail is safe again. -/
theorem safe_cons_of_plain {flag : Bool} {c : Char} {r : List Char}
    (h : Safe flag (c :: r)) (h1 : c ≠ '&') (h2 : c ≠ '<') : Safe flag r := by
  rcases safe_inv h with hnil | ⟨c', r', heq, hc, hs⟩ | ⟨e, r', he, heq, hs⟩ |
    ⟨t, r', ht, heq, hs⟩ | ⟨u, r', hflag, hu, hw, heq, hs⟩
  · exact absurd hnil (by simp)
  · cases heq; exact hs
  · obtain ⟨e', rfl⟩ := ent_eq_cons he
    simp only [List.cons_append, List.cons.injEq] at heq
    exact (h1 heq.1).elim
  · obtain ⟨t', rfl⟩ := tag_eq_cons ht
    simp only [List.cons_append, List.cons.injEq] at heq
    exact (h2 heq.1).elim
  · rw [aopen_eq_cons] at heq
    simp only [List.cons_append, List.cons.injEq] at heq
    exact (h2 heq.1).elim

theorem safe_append_left_plain {flag : Bool} {x r : List Char}
    (hx : ∀ c ∈ x, c ≠ '&' ∧ c ≠ '<') (h : Safe flag (x ++ r)) : Safe flag r := by
  induction x with
  | nil => simpa using h
  | cons a as ih =>
    have ha := hx a (by simp)
    exact ih (fun c hc => hx c (by simp [hc]))
      (safe_cons_of_plain (by simpa using h) ha.1 ha.2)

theorem safe_dropWhile {flag : Bool} (P : Char → Bool)
    (hAmp : P '&' = false) (hLt : P '<' = false) {l : List Char}
    (h : Safe flag l) : Safe flag (l.dropWhile P) := by
  induction h with
  | nil => exact .nil
  | chr c r hc t ih =>
      by_cases hPc : P c
      · simpa [List.dropWhile_cons, hPc] using ih
      · simpa [List.dropWhile_cons, hPc] using Safe.chr c r hc t
  | ent e r he t ih =>
      obtain ⟨e', rfl⟩ := ent_eq_cons he
      simpa [List.dropWhile_cons, hAmp] using Safe.ent _ r he t
  | tag t r ht tr ih =>
      obtain ⟨t', rfl⟩ := tag_eq_cons ht
      simpa [List.dropWhile_cons, hLt] using Safe.tag _ r ht tr
  | anch u r hu hw t ih =>
      have heq2 : List.dropWhile P (aopenChars ++ u ++ amidChars ++ r) =
          aopenChars ++ u ++ amidChars ++ r := by
        simp [aopen_eq_cons, List.dropWhile_cons, hLt, List.append_assoc]
      rw [heq2]
      exact .anch u r hu hw t

/-! ### Character facts about the fixed fragments -/

theorem ent_chars : ∀ e ∈ entityList, ∀ c ∈ e,
    c ≠ '\n' ∧ c ≠ '*' ∧ c ≠ '`' ∧ c ≠ '[' ∧ isSpaceJS c = false ∧
    isUrlChar c = true ∧ c ≠ ']' := by decide

theorem tag_chars : ∀ t ∈ tagList, ∀ c ∈ t,
    c ≠ '\n' ∧ c ≠ '*' ∧ c ≠ '`' ∧ c ≠ '[' ∧ isSpaceJS c = false ∧
    isUrlChar c = true ∧ c ≠ ']' := by decide

theorem aopen_chars_fact : ∀ c ∈ aopenChars,
    c ≠ '\n' ∧ c ≠ '[' ∧ c ≠ ']' := by decide

theorem amid_chars_fact : ∀ c ∈ amidChars,
    c ≠ '\n' ∧ c ≠ '[' ∧ c ≠ ']' := by decide

theorem star_not_special : '*' ∉ specials := by decide

theorem tick_not_special : '`' ∉ specials := by decide

/-! ### Generic helpers -/

theorem flatMap_id_of {f : Char → List Char} {x : List Char}
    (h : ∀ c ∈ x, f c = [c]) : x.flatMap f = x := by
  induction x with
  | nil => rfl
  | cons a as ih =>
      rw [List.flatMap_cons, h a (by simp), ih (fun c hc => h c (by simp [hc]))]
      rfl

theorem not_isPrefixOf_cons {p : List Char} {d c : Char} {p' l : List Char}
    (hp : p = d :: p') (hne : c ≠ d) : p.isPrefixOf (c :: l) = false := by
  subst hp
  simp [List.isPrefixOf, Ne.symm hne]

/-! ### The escaping stage establishes the invariant -/

def escChar (c : Char) : List Char :=
  if c = '&' then "&amp;".toList
  else if c = '<' then "&lt;".toList
  else if c = '>' then "&gt;".toList
  else [c]

theorem escapeAll_eq (l : List Char) : escapeAll l = l.flatMap escChar := by
  induction l with
  | nil => rfl
  | cons c cs ih =>
      rw [List.flatMap_cons, ← ih]
      show escGt (escLt (escAmp (c :: cs))) = _
      rw [show escAmp (c :: cs) =
            (if c = '&' then "&amp;".toList else [c]) ++ escAmp cs from
          List.flatMap_cons ..]
      rw [show ∀ x y, escLt (x ++ y) = escLt x ++ escLt y from
          fun x y => List.flatMap_append ..]
      rw [show ∀ x y, escGt (x ++ y) = escGt x ++ escGt y from
          fun x y => List.flatMap_append ..]
      congr 1
      by_cases h1 : c = '&'
      · subst h1; rfl
      · by_cases h2 : c = '<'
        · subst h2; rfl
        · by_cases h3 : c = '>'
          · subst h3; rfl
          · simp [escAmp, escLt, escGt, escChar, h1, h2, h3]

theorem escapeAll_safe (l : List Char) : Safe false (escapeAll l) := by
  rw [escapeAll_eq]
  induction l with
  | nil => exact .nil
  | cons c cs ih =>
      rw [List.flatMap_cons]
      by_cases h1 : c = '&'
      · subst h1
        exact safe_append (safe_ent_only (by simp [entityList, escChar])) ih
      · by_cases h2 : c = '<'
        · subst h2
          exact safe_append (safe_ent_only (by simp [entityList, escChar])) ih
        · by_cases h3 : c = '>'
          · subst h3
            exact safe_append (safe_ent_only (by simp [entityList, escChar])) ih
          · have : escChar c = [c] := by simp [escChar, h1, h2, h3]
            rw [this]
            exact .chr c _ (by simp [specials, h1, h2, h3]) ih

/-! ### Line splitting preserves the invariant -/

theorem splitNl_ne_nil (l : List Char) : splitNl l ≠ [] := by
  cases l with
  | nil => simp [splitNl]
  | cons c cs =>
      rw [splitNl]
      cases splitNl cs with
      | nil => simp
      | cons p ps => by_cases h : c = '\n' <;> simp [h]

theorem splitNl_cons_eq {c : Char} {r : List Char} {q : List Char}
    {qs : List (List Char)} (hsr : splitNl r = q :: qs) :
    splitNl (c :: r) = if c = '\n' then [] :: q :: qs else (c :: q) :: qs := by
  rw [splitNl, hsr]

theorem splitNl_append_nonl {x r : List Char} (hx : ∀ c ∈ x, c ≠ '\n') :
    splitNl (x ++ r) = (x ++ (splitNl r).headI) :: (splitNl r).tail := by
  induction x with
  | nil =>
      rcases hsr : splitNl r with _ | ⟨p, ps⟩
      · exact absurd hsr (splitNl_ne_nil r)
      · simp [hsr]
  | cons a as ih =>
      have ha : a ≠ '\n' := hx a (by simp)
      have ih2 := ih (fun c hc => hx c (by simp [hc]))
      rcases has : splitNl (as ++ r) with _ | ⟨p, ps⟩
      · exact absurd has (splitNl_ne_nil _)
      · rw [List.cons_append, splitNl_cons_eq has, if_neg ha]
        rw [has] at ih2
        simp only [List.cons.injEq] at ih2
        simp [ih2.1, ih2.2]

theorem splitNl_safe {flag : Bool} {l : List Char} (h : Safe flag l) :
    ∀ p ∈ splitNl l, Safe flag p := by
  induction h with
  | nil => intro p hp; simp [splitNl] at hp; simp [hp]; exact .nil
  | chr c r hc t ih =>
      intro p hp
      rcases hsr : splitNl r with _ | ⟨q, qs⟩
      · exact absurd hsr (splitNl_ne_nil r)
      · rw [splitNl_cons_eq hsr] at hp
        by_cases hcn : c = '\n'
        · rw [if_pos hcn] at hp
          rcases List.mem_cons.mp hp with rfl | hp
          · exact .nil
          · exact ih p (by rw [hsr]; exact hp)
        · rw [if_neg hcn] at hp
          rcases List.mem_cons.mp hp with rfl | hp
          · exact .chr c q hc (ih q (by rw [hsr]; simp))
          · exact ih p (by rw [hsr]; simp [hp])
  | ent e r he t ih =>
      intro p hp
      have hnl : ∀ c ∈ e, c ≠ '\n' := fun c hc => (ent_chars e he c hc).1
      rw [splitNl_append_nonl hnl] at hp
      rcases hsr : splitNl r with _ | ⟨q, qs⟩
      · exact absurd hsr (splitNl_ne_nil r)
      · rw [hsr] at hp
        simp only [List.headI, List.tail, List.mem_cons] at hp
        rcases hp with rfl | hp
        · exact .ent e q he (ih q (by rw [hsr]; simp))
        · exact ih p (by rw [hsr]; simp [hp])
  | tag t r ht tr ih =>
      intro p hp
      have hnl : ∀ c ∈ t, c ≠ '\n' := fun c hc => (tag_chars t ht c hc).1
      rw [splitNl_append_nonl hnl] at hp
      rcases hsr : splitNl r with _ | ⟨q, qs⟩
      · exact absurd hsr (splitNl_ne_nil r)
      · rw [hsr] at hp
        simp only [List.headI, List.tail, List.mem_cons] at hp
        rcases hp with rfl | hp
        · exact .tag t q ht (ih q (by rw [hsr]; simp))
        · exact ih p (by rw [hsr]; simp [hp])
  | anch u r hu hw t ihu ihr =>
      intro p hp
      have hnl : ∀ c ∈ aopenChars ++ u ++ amidChars, c ≠ '\n' := by
        intro c hc
        rcases List.mem_append.mp hc with hc' | hc'
        · rcases List.mem_append.mp hc' with hc'' | hc''
          · exact (aopen_chars_fact c hc'').1
          · intro heq; subst heq
            exact absurd (hw '\n' hc'') (by decide)
        · exact (amid_chars_fact c hc').1
      rw [show aopenChars ++ u ++ amidChars ++ r =
            (aopenChars ++ u ++ amidChars) ++ r by simp,
        splitNl_append_nonl hnl] at hp
      rcases hsr : splitNl r with _ | ⟨q, qs⟩
      · exact absurd hsr (splitNl_ne_nil r)
      · rw [hsr] at hp
        simp only [List.headI, List.tail, List.mem_cons] at hp
        rcases hp with rfl | hp
        · have := Safe.anch u q hu hw (ihr q (by rw [hsr]; simp))
          simpa using this
        · exact ihr p (by rw [hsr]; simp [hp])

theorem joinNl_safe {flag : Bool} {ps : List (List Char)}
    (h : ∀ p ∈ ps, Safe flag p) : Safe flag (joinNl ps) := by
  induction ps with
  | nil => exact .nil
  | cons p ps ih =>
      cases ps with
      | nil => simpa [joinNl] using h p (by simp)
      | cons q qs =>
          have hj : joinNl (p :: q :: qs) = p ++ '\n' :: joinNl (q :: qs) := rfl
          rw [hj]
          exact safe_append (h p (by simp))
            (.chr '\n' _ (by decide) (ih (fun x hx => h x (by simp [hx]))))

theorem mapLines_safe {flag : Bool} {f : List Char → List Char}
    (hf : ∀ x, Safe flag x → Safe flag (f x)) {l : List Char}
    (h : Safe flag l) : Safe flag (mapLines f l) := by
  refine joinNl_safe ?_
  intro p hp
  obtain ⟨q, hq, rfl⟩ := List.mem_map.mp hp
  exact hf q (splitNl_safe h q hq)

/-! ### Headings preserve the invariant -/

theorem headingLine_safe {flag : Bool} {pre tagO tagC : List Char}
    (hpre : ∀ c ∈ pre, c ≠ '&' ∧ c ≠ '<') (hO : tagO ∈ tagList)
    (hC : tagC ∈ tagList) {line : List Char} (h : Safe flag line) :
    Safe flag (headingLine pre tagO tagC line) := by
  rw [headingLine]
  by_cases hp : pre.isPrefixOf line
  · obtain ⟨t, rfl⟩ := isPrefixOf_exists.mp hp
    rw [if_pos hp, List.drop_left]
    have ht : Safe flag t := safe_append_left_plain hpre h
    exact safe_append (.tag tagO t hO ht) (safe_tag_only hC)
  · rw [if_neg hp]; exact h

theorem h3Pass_safe {l : List Char} (h : Safe false l) : Safe false (h3Pass l) :=
  mapLines_safe
    (fun _ hx => headingLine_safe (by decide) (by decide) (by decide) hx) h

theorem h2Pass_safe {l : List Char} (h : Safe false l) : Safe false (h2Pass l) :=
  mapLines_safe
    (fun _ hx => headingLine_safe (by decide) (by decide) (by decide) hx) h

theorem h1Pass_safe {l : List Char} (h : Safe false l) : Safe false (h1Pass l) :=
  mapLines_safe
    (fun _ hx => headingLine_safe (by decide) (by decide) (by decide) hx) h

/-! ### Delimited spans preserve the invariant

The delimiters of the four span passes are runs of `'*'` or `` '`' ``,
characters that occur in no entity and no tag, so delimiter matches start
and end at atom boundaries of the decomposition. -/

theorem findClose_append {close : List Char} {d : Char} {close' x y : List Char}
    {allowNl : Bool} (hcl : close = d :: close')
    (hx : ∀ c ∈ x, c ≠ d) (hnl : ∀ c ∈ x, c = '\n' → allowNl = true) :
    findClose close allowNl (x ++ y) =
      (findClose close allowNl y).map (fun p => (x ++ p.1, p.2)) := by
  induction x with
  | nil => cases h : findClose close allowNl y <;> simp [h]
  | cons a as ih =>
      have ha : a ≠ d := hx a (by simp)
      have hpf := not_isPrefixOf_cons (l := as ++ y) hcl ha
      rw [List.cons_append, findClose, hpf]
      have hanl : ¬ (a = '\n' ∧ ¬allowNl) := by
        rintro ⟨rfl, hna⟩
        exact hna (by simpa using hnl '\n' (by simp))
      simp only [Bool.false_eq_true, if_false, if_neg hanl]
      rw [ih (fun c hc => hx c (by simp [hc]))
        (fun c hc hcn => hnl c (by simp [hc]) hcn)]
      cases findClose close allowNl y <;> simp

theorem findSpan_append {opn close : List Char} {d : Char} {opn' x y : List Char}
    {allowNl : Bool} (hop : opn = d :: opn') (hx : ∀ c ∈ x, c ≠ d) :
    findSpan opn close allowNl (x ++ y) =
      (findSpan opn close allowNl y).map (fun p => (x ++ p.1, p.2)) := by
  induction x with
  | nil => cases h : findSpan opn close allowNl y <;> simp [h]
  | cons a as ih =>
      have ha : a ≠ d := hx a (by simp)
      have hpf := not_isPrefixOf_cons (l := as ++ y) hop ha
      rw [List.cons_append, findSpan, hpf]
      simp only [Bool.false_eq_true, if_false]
      rw [ih (fun c hc => hx c (by simp [hc]))]
      cases findSpan opn close allowNl y <;> simp

theorem findClose_safe {d : Char} {close : List Char} {allowNl : Bool}
    (hds : d ∉ specials) (hde : ∀ e ∈ entityList, d ∉ e)
    (hdt : ∀ t ∈ tagList, d ∉ t) (hclc : ∀ c ∈ close, c = d)
    (hclne : close ≠ []) {m : List Char} (h : Safe false m) :
    ∀ content rest, findClose close allowNl m = some (content, rest) →
      Safe false content ∧ Safe false rest := by
  obtain ⟨d0, close', rfl⟩ : ∃ d0 close', close = d0 :: close' := by
    cases close with
    | nil => exact absurd rfl hclne
    | cons a b => exact ⟨a, b, rfl⟩
  have hd0 : d0 = d := hclc d0 (by simp)
  subst hd0
  generalize hf : false = flag at h
  induction h with
  | nil => intro content rest heq; simp [findClose] at heq
  | chr c r hc t ih =>
      intro content rest heq
      rw [findClose] at heq
      by_cases hpf : (d0 :: close').isPrefixOf (c :: r)
      · rw [if_pos hpf] at heq
        obtain ⟨tl, htl⟩ := isPrefixOf_exists.mp hpf
        simp only [Option.some.injEq, Prod.mk.injEq] at heq
        obtain ⟨rfl, hrest⟩ := heq
        subst hf
        refine ⟨.nil, ?_⟩
        rw [← hrest, htl, List.drop_left]
        have hcl_plain : ∀ ch ∈ d0 :: close', ch ≠ '&' ∧ ch ≠ '<' := by
          intro ch hch
          have hchd := hclc ch hch
          subst hchd
          constructor <;> (intro hh; rw [hh] at hds; simp [specials] at hds)
        have hsafe : Safe false ((d0 :: close') ++ tl) := by
          rw [← htl]; exact .chr c r hc t
        exact safe_append_left_plain hcl_plain hsafe
      · rw [if_neg hpf] at heq
        by_cases hanl : c = '\n' ∧ ¬allowNl
        · rw [if_pos hanl] at heq; cases heq
        · rw [if_neg hanl] at heq
          rw [Option.map_eq_some'] at heq
          obtain ⟨p, hfc, hpe⟩ := heq
          obtain ⟨rfl, rfl⟩ : c :: p.1 = content ∧ p.2 = rest := by
            simpa [Prod.ext_iff] using hpe
          obtain ⟨h1, h2⟩ := ih hf p.1 p.2 hfc
          exact ⟨.chr c p.1 hc h1, h2⟩
  | ent e r he t ih =>
      intro content rest heq
      rw [findClose_append rfl
        (fun c hc hcd => hde e he (by rw [← hcd]; exact hc))
        (fun c hc hcn => absurd ((ent_chars e he c hc).1) (by simp [hcn]))] at heq
      rw [Option.map_eq_some'] at heq
      obtain ⟨p, hfc, hpe⟩ := heq
      obtain ⟨rfl, rfl⟩ : e ++ p.1 = content ∧ p.2 = rest := by
        simpa [Prod.ext_iff] using hpe
      obtain ⟨h1, h2⟩ := ih hf p.1 p.2 hfc
      exact ⟨.ent e p.1 he h1, h2⟩
  | tag t r ht tr ih =>
      intro content rest heq
      rw [findClose_append rfl
        (fun c hc hcd => hdt t ht (by rw [← hcd]; exact hc))
        (fun c hc hcn => absurd ((tag_chars t ht c hc).1) (by simp [hcn]))] at heq
      rw [Option.map_eq_some'] at heq
      obtain ⟨p, hfc, hpe⟩ := heq
      obtain ⟨rfl, rfl⟩ : t ++ p.1 = content ∧ p.2 = rest := by
        simpa [Prod.ext_iff] using hpe
      obtain ⟨h1, h2⟩ := ih hf p.1 p.2 hfc
      exact ⟨.tag t p.1 ht h1, h2⟩
  | anch u r hu hw t ihu ihr => cases hf

theorem findSpan_safe {d : Char} {opn close : List Char} {allowNl : Bool}
    (hds : d ∉ specials) (hde : ∀ e ∈ entityList, d ∉ e)
    (hdt : ∀ t ∈ tagList, d ∉ t) (hopc : ∀ c ∈ opn, c = d) (hopne : opn ≠ [])
    (hclc : ∀ c ∈ close, c = d) (hclne : close ≠ []) {l : List Char}
    (h : Safe false l) :
    ∀ pre content rest, findSpan opn close allowNl l = some (pre, content, rest) →
      Safe false pre ∧ Safe false content ∧ Safe false rest := by
  obtain ⟨d0, opn', rfl⟩ : ∃ d0 opn', opn = d0 :: opn' := by
    cases opn with
    | nil => exact absurd rfl hopne
    | cons a b => exact ⟨a, b, rfl⟩
  have hd0 : d0 = d := hopc d0 (by simp)
  subst hd0
  generalize hf : false = flag at h
  induction h with
  | nil => intro pre content rest heq; simp [findSpan] at heq
  | chr c r hc t ih =>
      intro pre content rest heq
      rw [findSpan] at heq
      by_cases hpf : (d0 :: opn').isPrefixOf (c :: r)
      · rw [if_pos hpf] at heq
        obtain ⟨tl, htl⟩ := isPrefixOf_exists.mp hpf
        have hop_plain : ∀ ch ∈ d0 :: opn', ch ≠ '&' ∧ ch ≠ '<' := by
          intro ch hch
          have hchd := hopc ch hch
          subst hchd
          subst hf
          constructor <;> (intro hh; rw [hh] at hds; simp [specials] at hds)
        have htl_safe : Safe false tl := by
          subst hf
          refine safe_append_left_plain hop_plain ?_
          rw [← htl]; exact .chr c r hc t
        have hdrop : (c :: r).drop (d0 :: opn').length = tl := by
          rw [htl, List.drop_left]
        cases hfc : findClose close allowNl ((c :: r).drop (d0 :: opn').length) with
        | some p =>
            rw [hfc] at heq
            simp only [Option.some.injEq, Prod.mk.injEq] at heq
            obtain ⟨rfl, rfl, rfl⟩ := heq
            obtain ⟨h1, h2⟩ := findClose_safe hds hde hdt hclc hclne
              (hdrop ▸ htl_safe) p.1 p.2 (by rw [hfc])
            exact ⟨hf ▸ Safe.nil, hf ▸ h1, hf ▸ h2⟩
        | none =>
            rw [hfc] at heq
            rw [Option.map_eq_some'] at heq
            obtain ⟨p, hfs, hpe⟩ := heq
            obtain ⟨rfl, rfl, rfl⟩ :
                c :: p.1 = pre ∧ p.2.1 = content ∧ p.2.2 = rest := by
              simpa [Prod.ext_iff] using hpe
            obtain ⟨h1, h2, h3⟩ := ih hf p.1 p.2.1 p.2.2 (by
              rw [hfs])
            exact ⟨.chr c p.1 hc h1, h2, h3⟩
      · rw [if_neg hpf] at heq
        rw [Option.map_eq_some'] at heq
        obtain ⟨p, hfs, hpe⟩ := heq
        obtain ⟨rfl, rfl, rfl⟩ :
            c :: p.1 = pre ∧ p.2.1 = content ∧ p.2.2 = rest := by
          simpa [Prod.ext_iff] using hpe
        obtain ⟨h1, h2, h3⟩ := ih hf p.1 p.2.1 p.2.2 (by rw [hfs])
        exact ⟨.chr c p.1 hc h1, h2, h3⟩
  | ent e r he t ih =>
      intro pre content rest heq
      rw [findSpan_append rfl
        (fun c hc hcd => hde e he (by rw [← hcd]; exact hc))] at heq
      rw [Option.map_eq_some'] at heq
      obtain ⟨p, hfs, hpe⟩ := heq
      obtain ⟨rfl, rfl, rfl⟩ :
          e ++ p.1 = pre ∧ p.2.1 = content ∧ p.2.2 = rest := by
        simpa [Prod.ext_iff] using hpe
      obtain ⟨h1, h2, h3⟩ := ih hf p.1 p.2.1 p.2.2 (by rw [hfs])
      exact ⟨.ent e p.1 he h1, h2, h3⟩
  | tag t r ht tr ih =>
      intro pre content rest heq
      rw [findSpan_append rfl
        (fun c hc hcd => hdt t ht (by rw [← hcd]; exact hc))] at heq
      rw [Option.map_eq_some'] at heq
      obtain ⟨p, hfs, hpe⟩ := heq
      obtain ⟨rfl, rfl, rfl⟩ :
          t ++ p.1 = pre ∧ p.2.1 = content ∧ p.2.2 = rest := by
        simpa [Prod.ext_iff] using hpe
      obtain ⟨h1, h2, h3⟩ := ih hf p.1 p.2.1 p.2.2 (by rw [hfs])
      exact ⟨.tag t p.1 ht h1, h2, h3⟩
  | anch u r hu hw t ihu ihr => cases hf

theorem spanGo_safe {d : Char} {opn close : List Char} {allowNl : Bool}
    {tagO tagC : List Char} (hds : d ∉ specials)
    (hde : ∀ e ∈ entityList, d ∉ e) (hdt : ∀ t ∈ tagList, d ∉ t)
    (hopc : ∀ c ∈ opn, c = d) (hopne : opn ≠ [])
    (hclc : ∀ c ∈ close, c = d) (hclne : close ≠ [])
    (hOs : Safe false tagO) (hCs : Safe false tagC) :
    ∀ (fuel : Nat) (l : List Char), Safe false l →
      Safe false (spanGo opn close allowNl tagO tagC fuel l) := by
  intro fuel
  induction fuel with
  | zero => intro l hl; exact hl
  | succ n ih =>
      intro l hl
      rw [spanGo]
      cases hfs : findSpan opn close allowNl l with
      | none => exact hl
      | some p =>
          obtain ⟨h1, h2, h3⟩ := findSpan_safe hds hde hdt hopc hopne hclc hclne
            hl p.1 p.2.1 p.2.2 (by rw [hfs])
          exact safe_append (safe_append (safe_append (safe_append h1 hOs) h2)
            hCs) (ih _ h3)

theorem star_not_in_ent : ∀ e ∈ entityList, '*' ∉ e := by decide

theorem star_not_in_tag : ∀ t ∈ tagList, '*' ∉ t := by decide

theorem tick_not_in_ent : ∀ e ∈ entityList, '`' ∉ e := by decide

theorem tick_not_in_tag : ∀ t ∈ tagList, '`' ∉ t := by decide

theorem safe_pre_code : Safe false "<pre><code>".toList := by
  rw [show ("<pre><code>".toList : List Char) =
        "<pre>".toList ++ "<code>".toList from by decide]
  exact safe_append (safe_tag_only (by decide)) (safe_tag_only (by decide))

theorem safe_code_pre : Safe false "</code></pre>".toList := by
  rw [show ("</code></pre>".toList : List Char) =
        "</code>".toList ++ "</pre>".toList from by decide]
  exact safe_append (safe_tag_only (by decide)) (safe_tag_only (by decide))

theorem boldPass_safe {l : List Char} (h : Safe false l) :
    Safe false (boldPass l) := by
  unfold boldPass spanPass
  exact spanGo_safe (d := '*') star_not_special star_not_in_ent star_not_in_tag
    (by decide) (by decide) (by decide) (by decide)
    (safe_tag_only (by decide)) (safe_tag_only (by decide)) _ _ h

theorem italicPass_safe {l : List Char} (h : Safe false l) :
    Safe false (italicPass l) := by
  unfold italicPass spanPass
  exact spanGo_safe (d := '*') star_not_special star_not_in_ent star_not_in_tag
    (by decide) (by decide) (by decide) (by decide)
    (safe_tag_only (by decide)) (safe_tag_only (by decide)) _ _ h

theorem inlineCodePass_safe {l : List Char} (h : Safe false l) :
    Safe false (inlineCodePass l) := by
  unfold inlineCodePass spanPass
  exact spanGo_safe (d := '`') tick_not_special tick_not_in_ent tick_not_in_tag
    (by decide) (by decide) (by decide) (by decide)
    (safe_tag_only (by decide)) (safe_tag_only (by decide)) _ _ h

theorem codeBlockPass_safe {l : List Char} (h : Safe false l) :
    Safe false (codeBlockPass l) := by
  unfold codeBlockPass spanPass
  exact spanGo_safe (d := '`') tick_not_special tick_not_in_ent tick_not_in_tag
    (by decide) (by decide) (by decide) (by decide)
    safe_pre_code safe_code_pre _ _ h

/-! ### Line breaks preserve the invariant -/

theorem brPass_safe {l : List Char} (h : Safe false l) : Safe false (brPass l) := by
  generalize hf : false = flag at h
  induction h with
  | nil => exact hf ▸ Safe.nil
  | chr c r hc t ih =>
      subst hf
      rw [show brPass (c :: r) =
            (if c = '\n' then "<br>".toList else [c]) ++ brPass r from
          List.flatMap_cons ..]
      by_cases hcn : c = '\n'
      · rw [if_pos hcn]
        exact safe_append (safe_tag_only (by decide)) (ih rfl)
      · rw [if_neg hcn]
        exact .chr c _ hc (ih rfl)
  | ent e r he t ih =>
      subst hf
      rw [show brPass (e ++ r) = brPass e ++ brPass r from List.flatMap_append ..,
        show brPass e = e from flatMap_id_of
          (fun c hc => by simp [(ent_chars e he c hc).1])]
      exact .ent e _ he (ih rfl)
  | tag t r ht tr ih =>
      subst hf
      rw [show brPass (t ++ r) = brPass t ++ brPass r from List.flatMap_append ..,
        show brPass t = t from flatMap_id_of
          (fun c hc => by simp [(tag_chars t ht c hc).1])]
      exact .tag t _ ht (ih rfl)
  | anch u r hu hw t ihu ihr => cases hf

/-! ### List items preserve the invariant -/

theorem bulletLine_safe {flag : Bool} {line : List Char} (h : Safe flag line) :
    Safe flag (bulletLine line) := by
  rw [bulletLine]
  split
  · next m r2 heq =>
      have hmr : Safe flag (m :: r2) :=
        heq ▸ safe_dropWhile isSpaceJS (by decide) (by decide) h
      split
      · next hm =>
          split
          · next c2 r2' =>
              split
              · next hws =>
                  have hr2 : Safe flag (c2 :: r2') :=
                    safe_cons_of_plain hmr
                      (by rcases hm with rfl | rfl <;> decide)
                      (by rcases hm with rfl | rfl <;> decide)
                  have hcont : Safe flag ((c2 :: r2').dropWhile isSpaceJS) :=
                    safe_dropWhile isSpaceJS (by decide) (by decide) hr2
                  exact safe_append (safe_append (safe_tag_only (by decide)) hcont)
                    (safe_tag_only (by decide))
              · exact h
          · exact h
      · exact h
  · exact h

theorem bulletItemsPass_safe {l : List Char} (h : Safe false l) :
    Safe false (bulletItemsPass l) :=
  mapLines_safe (fun _ hx => bulletLine_safe hx) h

theorem numberLine_safe {flag : Bool} {line : List Char} (h : Safe flag line) :
    Safe flag (numberLine line) := by
  rw [numberLine]
  have hr1 : Safe flag (line.dropWhile isSpaceJS) :=
    safe_dropWhile isSpaceJS (by decide) (by decide) h
  have hr2 : Safe flag ((line.dropWhile isSpaceJS).dropWhile Char.isDigit) :=
    safe_dropWhile Char.isDigit (by decide) (by decide) hr1
  split
  · exact h
  · split
    · next r3 heq =>
        split
        · next c2 r3' =>
            split
            · next hws =>
                have hr3 : Safe flag ('.' :: c2 :: r3') := heq ▸ hr2
                have hr4 : Safe flag (c2 :: r3') :=
                  safe_cons_of_plain hr3 (by decide) (by decide)
                have hcont : Safe flag ((c2 :: r3').dropWhile isSpaceJS) :=
                  safe_dropWhile isSpaceJS (by decide) (by decide) hr4
                exact safe_append (safe_append (safe_tag_only (by decide)) hcont)
                  (safe_tag_only (by decide))
            · exact h
        · exact h
    · exact h

theorem numberItemsPass_safe {l : List Char} (h : Safe false l) :
    Safe false (numberItemsPass l) :=
  mapLines_safe (fun _ hx => numberLine_safe hx) h

/-! ### List wrapping preserves the invariant

In an anchor-free safe string, `'<'` occurs only as the first character
of a tag, so every occurrence of `<li>` or `</li>` is a whole tag atom
and the wrap pass splits the decomposition at atom boundaries. -/

theorem lt_not_in_ent : ∀ e ∈ entityList, '<' ∉ e := by decide

theorem lt_not_in_tag_tail : ∀ t ∈ tagList, '<' ∉ t.tail := by decide

theorem tag_len_ge3 : ∀ t ∈ tagList, 3 ≤ t.length := by decide

theorem li_unique : ∀ t ∈ tagList,
    ("<li".toList.isPrefixOf t = true) → t = "<li>".toList := by decide

theorem liC_unique : ∀ t ∈ tagList,
    ("</l".toList.isPrefixOf t = true) → t = "</li>".toList := by decide

theorem take_append_le {x y : List Char} {k : Nat} (hk : k ≤ x.length) :
    (x ++ y).take k = x.take k := by
  conv_lhs => rw [← List.take_append_drop k x, List.append_assoc]
  exact List.take_left' (by simp [Nat.min_eq_left hk])

theorem isPrefixOf_take {p x y : List Char} {k : Nat}
    (h : p.isPrefixOf (x ++ y) = true) (hkx : k ≤ x.length) (hkp : k ≤ p.length) :
    (p.take k).isPrefixOf x = true := by
  obtain ⟨t, ht⟩ := isPrefixOf_exists.mp h
  apply isPrefixOf_exists.mpr
  refine ⟨x.drop k, ?_⟩
  have h1 : x.take k = p.take k := by
    have h2 := congrArg (List.take k) ht
    rwa [take_append_le hkx, take_append_le hkp] at h2
  rw [← h1, List.take_append_drop]

/-- In an anchor-free safe string, a tag-headed pattern that is a prefix
of `t ++ r` for a tag `t` identifies the tag via its first three
characters. -/
theorem tag_of_pat_isPrefixOf {pat t r : List Char} (ht : t ∈ tagList)
    (h : pat.isPrefixOf (t ++ r) = true) (hp3 : 3 ≤ pat.length) :
    (pat.take 3).isPrefixOf t = true :=
  isPrefixOf_take h (tag_len_ge3 t ht) hp3

theorem isPrefixOf_self_append {p r : List Char} : p.isPrefixOf (p ++ r) = true :=
  isPrefixOf_exists.mpr ⟨r, rfl⟩

theorem findSub_append {pat : List Char} {pat' x y : List Char}
    (hpat : pat = '<' :: pat') (hx : ∀ c ∈ x, c ≠ '<') :
    findSub pat (x ++ y) = (findSub pat y).map (fun p => (x ++ p.1, p.2)) := by
  induction x with
  | nil => cases h : findSub pat y <;> simp [h]
  | cons a as ih =>
      have ha : a ≠ '<' := hx a (by simp)
      have hpf := not_isPrefixOf_cons (l := as ++ y) hpat ha
      rw [List.cons_append, findSub, hpf]
      simp only [Bool.false_eq_true, if_false]
      rw [ih (fun c hc => hx c (by simp [hc]))]
      cases findSub pat y <;> simp

theorem findLastSub_append {pat : List Char} {pat' x y : List Char}
    (hpat : pat = '<' :: pat') (hx : ∀ c ∈ x, c ≠ '<') :
    findLastSub pat (x ++ y) =
      (findLastSub pat y).map (fun p => (x ++ p.1, p.2)) := by
  induction x with
  | nil => cases h : findLastSub pat y <;> simp [h]
  | cons a as ih =>
      have ha : a ≠ '<' := hx a (by simp)
      have hpf := not_isPrefixOf_cons (l := as ++ y) hpat ha
      rw [List.cons_append, findLastSub, ih (fun c hc => hx c (by simp [hc]))]
      cases h : findLastSub pat y with
      | some p => simp
      | none => simp [hpf]

theorem li_pat_eq : ("<li>".toList : List Char) = '<' :: "li>".toList := rfl

theorem liC_pat_eq : ("</li>".toList : List Char) = '<' :: "/li>".toList := rfl

theorem findLastSub_cons_some {pat : List Char} {c : Char} {cs p r : List Char}
    (h : findLastSub pat cs = some (p, r)) :
    findLastSub pat (c :: cs) = some (c :: p, r) := by
  rw [findLastSub, h]

theorem findLastSub_cons_none {pat : List Char} {c : Char} {cs : List Char}
    (h : findLastSub pat cs = none) :
    findLastSub pat (c :: cs) =
      if pat.isPrefixOf (c :: cs) then some ([], c :: cs) else none := by
  rw [findLastSub, h]

theorem findSub_li_safe {l : List Char} (h : Safe false l) :
    ∀ pre rest, findSub "<li>".toList l = some (pre, rest) →
      Safe false pre ∧ Safe false (rest.drop 4) := by
  generalize hf : false = flag at h
  induction h with
  | nil =>
      intro pre rest heq
      rw [findSub] at heq
      simp [show ("<li>".toList.isPrefixOf ([] : List Char)) = false from rfl] at heq
  | chr c r hc t ih =>
      intro pre rest heq
      have hcn : c ≠ '<' := by
        intro hcc; rw [hcc] at hc; simp [specials] at hc
      rw [findSub, not_isPrefixOf_cons li_pat_eq hcn] at heq
      simp only [Bool.false_eq_true, if_false, Option.map_eq_some'] at heq
      obtain ⟨p, hfs, hpe⟩ := heq
      obtain ⟨rfl, rfl⟩ : c :: p.1 = pre ∧ p.2 = rest := by
        simpa [Prod.ext_iff] using hpe
      obtain ⟨h1, h2⟩ := ih hf p.1 p.2 hfs
      exact ⟨.chr c p.1 hc h1, h2⟩
  | ent e r he t ih =>
      intro pre rest heq
      rw [findSub_append li_pat_eq
        (fun c hc hcc => lt_not_in_ent e he (by rw [← hcc]; exact hc))] at heq
      rw [Option.map_eq_some'] at heq
      obtain ⟨p, hfs, hpe⟩ := heq
      obtain ⟨rfl, rfl⟩ : e ++ p.1 = pre ∧ p.2 = rest := by
        simpa [Prod.ext_iff] using hpe
      obtain ⟨h1, h2⟩ := ih hf p.1 p.2 hfs
      exact ⟨.ent e p.1 he h1, h2⟩
  | tag t r ht tr ih =>
      intro pre rest heq
      obtain ⟨t', hteq⟩ := tag_eq_cons ht
      have ht' : ∀ c ∈ t', c ≠ '<' := by
        intro c hc hcc
        exact lt_not_in_tag_tail t ht (by rw [hteq, ← hcc]; exact hc)
      by_cases hpf : "<li>".toList.isPrefixOf (t ++ r) = true
      · have ht4 : t = "<li>".toList :=
          li_unique t ht (tag_of_pat_isPrefixOf ht hpf (by decide))
        subst ht4
        have hshape : ("<li>".toList : List Char) ++ r =
            '<' :: ('l' :: 'i' :: '>' :: r) := rfl
        rw [hshape, findSub,
          if_pos (show "<li>".toList.isPrefixOf ('<' :: ('l' :: 'i' :: '>' :: r)) =
            true by rw [← hshape]; exact isPrefixOf_self_append)] at heq
        simp only [Option.some.injEq, Prod.mk.injEq] at heq
        obtain ⟨rfl, hrest⟩ := heq
        refine ⟨hf ▸ Safe.nil, ?_⟩
        rw [← hrest]
        exact tr
      · rw [hteq, List.cons_append, findSub] at heq
        rw [if_neg (show ¬ ("<li>".toList.isPrefixOf ('<' :: (t' ++ r)) = true) by
          rw [← List.cons_append, ← hteq]; exact hpf)] at heq
        rw [findSub_append li_pat_eq ht', Option.map_map] at heq
        rw [Option.map_eq_some'] at heq
        obtain ⟨p, hfs, hpe⟩ := heq
        obtain ⟨rfl, rfl⟩ : '<' :: (t' ++ p.1) = pre ∧ p.2 = rest := by
          simpa [Function.comp, Prod.ext_iff] using hpe
        obtain ⟨h1, h2⟩ := ih hf p.1 p.2 hfs
        refine ⟨?_, h2⟩
        rw [show '<' :: (t' ++ p.1) = ('<' :: t') ++ p.1 from rfl, ← hteq]
        exact .tag t p.1 ht h1
  | anch u r hu hw t ihu ihr => cases hf

theorem findLastSub_liC_safe {l : List Char} (h : Safe false l) :
    ∀ mid rest2, findLastSub "</li>".toList l = some (mid, rest2) →
      Safe false mid ∧ Safe false (rest2.drop 5) := by
  generalize hf : false = flag at h
  induction h with
  | nil =>
      intro mid rest2 heq
      rw [findLastSub] at heq
      simp [show ("</li>".toList.isPrefixOf ([] : List Char)) = false from rfl] at heq
  | chr c r hc t ih =>
      intro mid rest2 heq
      have hcn : c ≠ '<' := by
        intro hcc; rw [hcc] at hc; simp [specials] at hc
      cases hfr : findLastSub "</li>".toList r with
      | some p =>
          rw [findLastSub_cons_some (by rw [hfr]), Option.some.injEq,
            Prod.mk.injEq] at heq
          obtain ⟨hmid, hrest⟩ := heq
          obtain ⟨h1, h2⟩ := ih hf p.1 p.2 (by rw [hfr])
          subst hmid
          subst hrest
          exact ⟨.chr c p.1 hc h1, h2⟩
      | none =>
          rw [findLastSub_cons_none hfr,
            not_isPrefixOf_cons liC_pat_eq hcn] at heq
          simp at heq
  | ent e r he t ih =>
      intro mid rest2 heq
      rw [findLastSub_append liC_pat_eq
        (fun c hc hcc => lt_not_in_ent e he (by rw [← hcc]; exact hc))] at heq
      rw [Option.map_eq_some'] at heq
      obtain ⟨p, hfs, hpe⟩ := heq
      obtain ⟨rfl, rfl⟩ : e ++ p.1 = mid ∧ p.2 = rest2 := by
        simpa [Prod.ext_iff] using hpe
      obtain ⟨h1, h2⟩ := ih hf p.1 p.2 hfs
      exact ⟨.ent e p.1 he h1, h2⟩
  | tag t r ht tr ih =>
      intro mid rest2 heq
      obtain ⟨t', hteq⟩ := tag_eq_cons ht
      have ht' : ∀ c ∈ t', c ≠ '<' := by
        intro c hc hcc
        exact lt_not_in_tag_tail t ht (by rw [hteq, ← hcc]; exact hc)
      have hstep : findLastSub "</li>".toList (t' ++ r) =
          (findLastSub "</li>".toList r).map (fun p => (t' ++ p.1, p.2)) :=
        findLastSub_append liC_pat_eq ht'
      rw [hteq, List.cons_append] at heq
      cases hfr : findLastSub "</li>".toList r with
      | some p =>
          rw [findLastSub_cons_some (by rw [hstep, hfr]; rfl),
            Option.some.injEq, Prod.mk.injEq] at heq
          obtain ⟨hmid, hrest⟩ := heq
          obtain ⟨h1, h2⟩ := ih hf p.1 p.2 (by rw [hfr])
          subst hmid
          subst hrest
          refine ⟨?_, h2⟩
          rw [show '<' :: (t' ++ p.1) = ('<' :: t') ++ p.1 from rfl, ← hteq]
          exact .tag t p.1 ht h1
      | none =>
          rw [findLastSub_cons_none (by rw [hstep, hfr]; rfl)] at heq
          by_cases hpf : "</li>".toList.isPrefixOf ('<' :: (t' ++ r)) = true
          · have hpf2 : "</li>".toList.isPrefixOf (t ++ r) = true := by
              rw [hteq, List.cons_append]; exact hpf
            have ht5 : t = "</li>".toList :=
              liC_unique t ht (tag_of_pat_isPrefixOf ht hpf2 (by decide))
            rw [if_pos hpf] at heq
            simp only [Option.some.injEq, Prod.mk.injEq] at heq
            obtain ⟨hmid, hrest⟩ := heq
            subst hmid
            refine ⟨hf ▸ Safe.nil, ?_⟩
            rw [← hrest]
            have hshape : '<' :: (t' ++ r) = t ++ r := by
              rw [hteq, List.cons_append]
            rw [hshape, ht5]
            exact tr
          · rw [if_neg hpf] at heq
            cases heq
  | anch u r hu hw t ihu ihr => cases hf

theorem wrapPass_safe {wo wc : List Char} (hwo : wo ∈ tagList)
    (hwc : wc ∈ tagList) {l : List Char} (h : Safe false l) :
    Safe false (wrapPass wo wc l) := by
  rw [wrapPass]
  split
  · exact h
  next pre rest heq1 =>
    split
    · exact h
    next mid rest2 heq2 =>
      obtain ⟨h1, h2⟩ := findSub_li_safe h pre rest heq1
      obtain ⟨h3, h4⟩ := findLastSub_liC_safe h2 mid rest2 heq2
      exact safe_append (safe_append (safe_append (safe_append
        (safe_append (safe_append h1 (safe_tag_only hwo))
          (safe_tag_only (by decide))) h3)
        (safe_tag_only (by decide))) (safe_tag_only hwc)) h4

theorem ulWrapPass_safe {l : List Char} (h : Safe false l) :
    Safe false (ulWrapPass l) := by
  unfold ulWrapPass
  exact wrapPass_safe (by decide) (by decide) h

theorem olWrapPass_safe {l : List Char} (h : Safe false l) :
    Safe false (olWrapPass l) := by
  unfold olWrapPass
  exact wrapPass_safe (by decide) (by decide) h

/-! ### Links establish the full invariant

The label runs to the first `']'` and the URL is a run of characters that
are neither whitespace nor `')'`; none of these boundary characters occurs
inside an entity or a tag, so the captured label and URL are themselves
safe decompositions, and the emitted anchor is the anchor atom. -/

theorem safe_of_plain_chars {flag : Bool} {x : List Char}
    (h : ∀ c ∈ x, c ∉ specials) : Safe flag x := by
  induction x with
  | nil => exact .nil
  | cons a as ih =>
      exact .chr a as (h a (by simp)) (ih (fun c hc => h c (by simp [hc])))

theorem safe_take_drop {P : Char → Bool}
    (hE : ∀ e ∈ entityList, ∀ c ∈ e, P c = true)
    (hT : ∀ t ∈ tagList, ∀ c ∈ t, P c = true)
    {l : List Char} (h : Safe false l) :
    Safe false (l.takeWhile P) ∧ Safe false (l.dropWhile P) := by
  generalize hf : false = flag at h
  induction h with
  | nil => constructor <;> simp <;> exact hf ▸ Safe.nil
  | chr c r hc t ih =>
      by_cases hPc : P c
      · obtain ⟨ih1, ih2⟩ := ih hf
        rw [List.takeWhile_cons_of_pos hPc, List.dropWhile_cons_of_pos hPc]
        exact ⟨.chr c _ hc ih1, ih2⟩
      · rw [List.takeWhile_cons_of_neg hPc, List.dropWhile_cons_of_neg hPc]
        exact ⟨hf ▸ Safe.nil, .chr c r hc t⟩
  | ent e r he t ih =>
      obtain ⟨ih1, ih2⟩ := ih hf
      rw [List.takeWhile_append_of_pos (fun a ha => hE e he a ha),
        List.dropWhile_append_of_pos (fun a ha => hE e he a ha)]
      exact ⟨.ent e _ he ih1, ih2⟩
  | tag t r ht tr ih =>
      obtain ⟨ih1, ih2⟩ := ih hf
      rw [List.takeWhile_append_of_pos (fun a ha => hT t ht a ha),
        List.dropWhile_append_of_pos (fun a ha => hT t ht a ha)]
      exact ⟨.tag t _ ht ih1, ih2⟩
  | anch u r hu hw t ihu ihr => cases hf

theorem isUrlChar_not_ws {c : Char} (h : isUrlChar c = true) :
    isSpaceJS c = false := by
  simp only [isUrlChar, decide_eq_true_eq] at h
  simpa using h.1

theorem parseLink_safe {cs : List Char} (h : Safe false cs) :
    ∀ label url rest, parseLink cs = some (label, url, rest) →
      Safe false label ∧ Safe false url ∧
      (∀ c ∈ url, isSpaceJS c = false) ∧ Safe false rest := by
  intro label url rest heq
  simp only [parseLink] at heq
  have hPlabel : ∀ e ∈ entityList, ∀ c ∈ e, (decide (c ≠ ']')) = true := by
    intro e he c hc
    simp [(ent_chars e he c hc).2.2.2.2.2.2]
  have hTlabel : ∀ t ∈ tagList, ∀ c ∈ t, (decide (c ≠ ']')) = true := by
    intro t ht c hc
    simp [(tag_chars t ht c hc).2.2.2.2.2.2]
  obtain ⟨htake, hdrop⟩ := safe_take_drop hPlabel hTlabel h
  split at heq
  · cases heq
  · split at heq
    · next r3 hr3 =>
        rw [hr3] at hdrop
        have hr3safe : Safe false r3 :=
          safe_cons_of_plain (safe_cons_of_plain hdrop (by decide) (by decide))
            (by decide) (by decide)
        split at heq
        · cases heq
        · next k hk =>
            have hsch : (k = 7 ∧ "http://".toList.isPrefixOf r3 = true) ∨
                (k = 8 ∧ "https://".toList.isPrefixOf r3 = true) := by
              by_cases h7 : "http://".toList.isPrefixOf r3 = true
              · rw [if_pos h7] at hk
                exact Or.inl ⟨(Option.some.inj hk).symm, h7⟩
              · rw [if_neg h7] at hk
                by_cases h8 : "https://".toList.isPrefixOf r3 = true
                · rw [if_pos h8] at hk
                  exact Or.inr ⟨(Option.some.inj hk).symm, h8⟩
                · rw [if_neg h8] at hk; cases hk
            have hUe : ∀ e ∈ entityList, ∀ c ∈ e, isUrlChar c = true :=
              fun e he c hc => (ent_chars e he c hc).2.2.2.2.2.1
            have hUt : ∀ t ∈ tagList, ∀ c ∈ t, isUrlChar c = true :=
              fun t ht c hc => (tag_chars t ht c hc).2.2.2.2.2.1
            rcases hsch with ⟨rfl, hpre⟩ | ⟨rfl, hpre⟩
            · obtain ⟨rr, hrr⟩ := isPrefixOf_exists.mp hpre
              have hdrop7 : r3.drop 7 = rr := by
                rw [hrr]; exact List.drop_left' (by decide)
              have htake7 : r3.take 7 = "http://".toList := by
                rw [hrr]; exact List.take_left' (by decide)
              have hrrsafe : Safe false rr := by
                refine safe_append_left_plain (x := "http://".toList)
                  (by decide) ?_
                rw [← hrr]; exact hr3safe
              obtain ⟨hutake, hudrop⟩ := safe_take_drop hUe hUt hrrsafe
              rw [hdrop7] at heq
              split at heq
              · cases heq
              · split at heq
                · next r6 hr6 =>
                    rw [hr6] at hudrop
                    simp only [Option.some.injEq, Prod.mk.injEq] at heq
                    obtain ⟨hl, hu, hr⟩ := heq
                    subst hl
                    subst hu
                    subst hr
                    refine ⟨htake, ?_, ?_, ?_⟩
                    · rw [htake7]
                      exact safe_append (safe_of_plain_chars (by decide)) hutake
                    · intro c hc
                      rcases List.mem_append.mp hc with hc' | hc'
                      · rw [htake7] at hc'
                        exact (show ∀ x ∈ ("http://".toList : List Char),
                          isSpaceJS x = false by decide) c hc'
                      · exact isUrlChar_not_ws (List.mem_takeWhile_imp hc')
                    · exact safe_cons_of_plain hudrop (by decide) (by decide)
                · cases heq
            · obtain ⟨rr, hrr⟩ := isPrefixOf_exists.mp hpre
              have hdrop8 : r3.drop 8 = rr := by
                rw [hrr]; exact List.drop_left' (by decide)
              have htake8 : r3.take 8 = "https://".toList := by
                rw [hrr]; exact List.take_left' (by decide)
              have hrrsafe : Safe false rr := by
                refine safe_append_left_plain (x := "https://".toList)
                  (by decide) ?_
                rw [← hrr]; exact hr3safe
              obtain ⟨hutake, hudrop⟩ := safe_take_drop hUe hUt hrrsafe
              rw [hdrop8] at heq
              split at heq
              · cases heq
              · split at heq
                · next r6 hr6 =>
                    rw [hr6] at hudrop
                    simp only [Option.some.injEq, Prod.mk.injEq] at heq
                    obtain ⟨hl, hu, hr⟩ := heq
                    subst hl
                    subst hu
                    subst hr
                    refine ⟨htake, ?_, ?_, ?_⟩
                    · rw [htake8]
                      exact safe_append (safe_of_plain_chars (by decide)) hutake
                    · intro c hc
                      rcases List.mem_append.mp hc with hc' | hc'
                      · rw [htake8] at hc'
                        exact (show ∀ x ∈ ("https://".toList : List Char),
                          isSpaceJS x = false by decide) c hc'
                      · exact isUrlChar_not_ws (List.mem_takeWhile_imp hc')
                    · exact safe_cons_of_plain hudrop (by decide) (by decide)
                · cases heq
    · cases heq

theorem findLink_append {x y : List Char} (hx : '[' ∉ x) :
    findLink (x ++ y) =
      (findLink y).map (fun p => (x ++ p.1, p.2.1, p.2.2.1, p.2.2.2)) := by
  induction x with
  | nil => cases h : findLink y <;> simp [h]
  | cons a as ih =>
      have ha : a ≠ '[' := fun hcc => hx (by simp [hcc])
      rw [List.cons_append, findLink, if_neg ha,
        ih (fun hc => hx (by simp [hc]))]
      cases findLink y <;> simp

theorem lb_not_in_ent : ∀ e ∈ entityList, '[' ∉ e := by decide

theorem lb_not_in_tag : ∀ t ∈ tagList, '[' ∉ t := by decide

theorem findLink_safe {l : List Char} (h : Safe false l) :
    ∀ pre label url rest, findLink l = some (pre, label, url, rest) →
      Safe false pre ∧ Safe false label ∧ Safe false url ∧
      (∀ c ∈ url, isSpaceJS c = false) ∧ Safe false rest := by
  generalize hf : false = flag at h
  induction h with
  | nil => intro pre label url rest heq; rw [findLink] at heq; cases heq
  | chr c r hc t ih =>
      intro pre label url rest heq
      rw [findLink] at heq
      by_cases hcb : c = '['
      · rw [if_pos hcb] at heq
        cases hpl : parseLink r with
        | some q =>
            rw [hpl] at heq
            simp only [Option.some.injEq, Prod.mk.injEq] at heq
            obtain ⟨hp, hl, hu, hr⟩ := heq
            subst hf
            obtain ⟨h1, h2, h3, h4⟩ :=
              parseLink_safe t q.1 q.2.1 q.2.2 (by rw [hpl])
            subst hp
            subst hl
            subst hu
            subst hr
            exact ⟨.nil, h1, h2, h3, h4⟩
        | none =>
            rw [hpl] at heq
            rw [Option.map_eq_some'] at heq
            obtain ⟨p, hfs, hpe⟩ := heq
            obtain ⟨rfl, rfl, rfl, rfl⟩ :
                c :: p.1 = pre ∧ p.2.1 = label ∧ p.2.2.1 = url ∧
                  p.2.2.2 = rest := by
              simpa [Prod.ext_iff] using hpe
            obtain ⟨h1, h2, h3, h4, h5⟩ := ih hf p.1 p.2.1 p.2.2.1 p.2.2.2 hfs
            exact ⟨.chr c p.1 hc h1, h2, h3, h4, h5⟩
      · rw [if_neg hcb] at heq
        rw [Option.map_eq_some'] at heq
        obtain ⟨p, hfs, hpe⟩ := heq
        obtain ⟨rfl, rfl, rfl, rfl⟩ :
            c :: p.1 = pre ∧ p.2.1 = label ∧ p.2.2.1 = url ∧
              p.2.2.2 = rest := by
          simpa [Prod.ext_iff] using hpe
        obtain ⟨h1, h2, h3, h4, h5⟩ := ih hf p.1 p.2.1 p.2.2.1 p.2.2.2 hfs
        exact ⟨.chr c p.1 hc h1, h2, h3, h4, h5⟩
  | ent e r he t ih =>
      intro pre label url rest heq
      rw [findLink_append (lb_not_in_ent e he)] at heq
      rw [Option.map_eq_some'] at heq
      obtain ⟨p, hfs, hpe⟩ := heq
      obtain ⟨rfl, rfl, rfl, rfl⟩ :
          e ++ p.1 = pre ∧ p.2.1 = label ∧ p.2.2.1 = url ∧ p.2.2.2 = rest := by
        simpa [Prod.ext_iff] using hpe
      obtain ⟨h1, h2, h3, h4, h5⟩ := ih hf p.1 p.2.1 p.2.2.1 p.2.2.2 hfs
      exact ⟨.ent e p.1 he h1, h2, h3, h4, h5⟩
  | tag t r ht tr ih =>
      intro pre label url rest heq
      rw [findLink_append (lb_not_in_tag t ht)] at heq
      rw [Option.map_eq_some'] at heq
      obtain ⟨p, hfs, hpe⟩ := heq
      obtain ⟨rfl, rfl, rfl, rfl⟩ :
          t ++ p.1 = pre ∧ p.2.1 = label ∧ p.2.2.1 = url ∧ p.2.2.2 = rest := by
        simpa [Prod.ext_iff] using hpe
      obtain ⟨h1, h2, h3, h4, h5⟩ := ih hf p.1 p.2.1 p.2.2.1 p.2.2.2 hfs
      exact ⟨.tag t p.1 ht h1, h2, h3, h4, h5⟩
  | anch u r hu hw t ihu ihr => cases hf

theorem anchorFor_safe {label url : List Char} (hl : Safe false label)
    (hu : Safe false url) (hw : ∀ c ∈ url, isSpaceJS c = false)
    {r : List Char} (hr : Safe true r) :
    Safe true (anchorFor label url ++ r) := by
  have h2 : Safe true (aopenChars ++ url ++ amidChars ++
      (label ++ ("</a>".toList ++ r))) :=
    .anch url _ hu.mono hw
      (safe_append hl.mono (safe_append (safe_tag_only (by decide)) hr))
  rw [anchorFor]
  simpa [List.append_assoc] using h2

theorem linkGo_safe : ∀ (fuel : Nat) (l : List Char), Safe false l →
    Safe true (linkGo fuel l) := by
  intro fuel
  induction fuel with
  | zero => intro l hl; exact hl.mono
  | succ n ih =>
      intro l hl
      rw [linkGo]
      cases hfl : findLink l with
      | none => exact hl.mono
      | some p =>
          obtain ⟨h1, h2, h3, h4, h5⟩ :=
            findLink_safe hl p.1 p.2.1 p.2.2.1 p.2.2.2 (by rw [hfl])
          have := safe_append h1.mono (anchorFor_safe h2 h3 h4 (ih _ h5))
          simpa [List.append_assoc] using this

theorem replaceLinks_safe {l : List Char} (h : Safe false l) :
    Safe true (replaceLinks l) :=
  linkGo_safe l.length l h

/-! ### Paragraphs preserve the invariant -/

theorem paragraphLine_safe {flag : Bool} {line : List Char}
    (h : Safe flag line) : Safe flag (paragraphLine line) := by
  rw [paragraphLine]
  split
  · exact h
  · split
    · exact h
    · exact safe_append (safe_append (safe_tag_only (by decide)) h)
        (safe_tag_only (by decide))

theorem paragraphPass_safe {flag : Bool} {l : List Char} (h : Safe flag l) :
    Safe flag (paragraphPass l) :=
  mapLines_safe (fun _ hx => paragraphLine_safe hx) h

/-! ### Whitespace collapsing preserves the invariant

Entities and tags contain no whitespace; the anchor opening and closing
fragments contain single interior spaces flanked by non-whitespace
characters, so collapsing maps each fragment to itself. -/

theorem collapseGo_cons_nws {c : Char} (hc : isSpaceJS c = false)
    (b : Bool) (y : List Char) :
    collapseGo b (c :: y) = c :: collapseGo false y := by
  rw [collapseGo, if_neg (by simp [hc])]

theorem collapseGo_cons_ws_false {c : Char} (hc : isSpaceJS c = true)
    (y : List Char) : collapseGo false (c :: y) = ' ' :: collapseGo true y := by
  rw [collapseGo, if_pos (by simp [hc]), if_neg (by simp)]

theorem collapseGo_nows_false {u : List Char}
    (hu : ∀ c ∈ u, isSpaceJS c = false) (z : List Char) :
    collapseGo false (u ++ z) = u ++ collapseGo false z := by
  induction u with
  | nil => rfl
  | cons a as ih =>
      rw [List.cons_append, collapseGo_cons_nws (hu a (by simp)),
        ih (fun c hc => hu c (by simp [hc]))]
      rfl

theorem collapseGo_nows_ne {x : List Char}
    (hx : ∀ c ∈ x, isSpaceJS c = false) (hne : x ≠ []) (b : Bool)
    (z : List Char) : collapseGo b (x ++ z) = x ++ collapseGo false z := by
  cases x with
  | nil => exact absurd rfl hne
  | cons a as =>
      rw [List.cons_append, collapseGo_cons_nws (hx a (by simp)),
        collapseGo_nows_false (fun c hc => hx c (by simp [hc]))]
      rfl

theorem collapseGo_aopen (b : Bool) (z : List Char) :
    collapseGo b (aopenChars ++ z) = aopenChars ++ collapseGo false z := by
  rw [show aopenChars ++ z =
      '<' :: 'a' :: ' ' :: 'h' :: 'r' :: 'e' :: 'f' :: '=' :: '"' :: z from rfl]
  rw [collapseGo_cons_nws (by decide), collapseGo_cons_nws (by decide),
    collapseGo_cons_ws_false (by decide), collapseGo_cons_nws (by decide),
    collapseGo_cons_nws (by decide), collapseGo_cons_nws (by decide),
    collapseGo_cons_nws (by decide), collapseGo_cons_nws (by decide),
    collapseGo_cons_nws (by decide)]
  rfl

theorem collapseGo_amid (z : List Char) :
    collapseGo false (amidChars ++ z) = amidChars ++ collapseGo false z := by
  rw [show amidChars ++ z =
      '"' :: ' ' :: 't' :: 'a' :: 'r' :: 'g' :: 'e' :: 't' :: '=' :: '"' ::
      '_' :: 'b' :: 'l' :: 'a' :: 'n' :: 'k' :: '"' :: ' ' :: 'r' :: 'e' ::
      'l' :: '=' :: '"' :: 'n' :: 'o' :: 'o' :: 'p' :: 'e' :: 'n' :: 'e' ::
      'r' :: ' ' :: 'n' :: 'o' :: 'r' :: 'e' :: 'f' :: 'e' :: 'r' :: 'r' ::
      'e' :: 'r' :: '"' :: '>' :: z from rfl]
  repeat
    first
      | rw [collapseGo_cons_nws (by decide)]
      | rw [collapseGo_cons_ws_false (by decide)]
  rfl

theorem collapseGo_safe {flag : Bool} {l : List Char} (h : Safe flag l) :
    ∀ b, Safe flag (collapseGo b l) := by
  induction h with
  | nil => intro b; exact .nil
  | chr c r hc t ih =>
      intro b
      by_cases hws : isSpaceJS c = true
      · rw [collapseGo, if_pos (by simp [hws])]
        by_cases hb : b = true
        · rw [if_pos hb]; exact ih true
        · rw [if_neg hb]
          exact .chr ' ' _ (by decide) (ih true)
      · rw [collapseGo_cons_nws (by simpa using hws)]
        exact .chr c _ hc (ih false)
  | ent e r he t ih =>
      intro b
      rw [collapseGo_nows_ne (fun c hc => (ent_chars e he c hc).2.2.2.2.1)
        (by rcases ent_eq_cons he with ⟨e', rfl⟩; simp) b r]
      exact .ent e _ he (ih false)
  | tag t r ht tr ih =>
      intro b
      rw [collapseGo_nows_ne (fun c hc => (tag_chars t ht c hc).2.2.2.2.1)
        (by rcases tag_eq_cons ht with ⟨t', rfl⟩; simp) b r]
      exact .tag t _ ht (ih false)
  | anch u r hu hw t ihu ihr =>
      intro b
      have hshape : aopenChars ++ u ++ amidChars ++ r =
          aopenChars ++ (u ++ (amidChars ++ r)) := by
        simp [List.append_assoc]
      rw [hshape, collapseGo_aopen, collapseGo_nows_false hw, collapseGo_amid]
      have h2 := Safe.anch u (collapseGo false r) hu hw (ihr false)
      simpa [List.append_assoc] using h2

theorem collapseWs_safe {flag : Bool} {l : List Char} (h : Safe flag l) :
    Safe flag (collapseWs l) := collapseGo_safe h false

/-! ### Trimming preserves the invariant -/

theorem dropTrailWs_append (x y : List Char) :
    dropTrailWs (x ++ y) =
      if dropTrailWs y = [] then dropTrailWs x else x ++ dropTrailWs y := by
  induction x with
  | nil =>
      by_cases hy : dropTrailWs y = []
      · simp [hy, dropTrailWs]
      · simp [hy]
  | cons a as ih =>
      rw [List.cons_append, dropTrailWs, ih]
      by_cases hy : dropTrailWs y = []
      · rw [if_pos hy, if_pos hy, dropTrailWs]
      · rw [if_neg hy, if_neg hy, List.cons_append]
        have hne : as ++ dropTrailWs y ≠ [] := by
          simp [hy]
        rcases hd : as ++ dropTrailWs y with _ | ⟨q, qs⟩
        · exact absurd hd hne
        · rfl

theorem ent_dropTrailWs : ∀ e ∈ entityList, dropTrailWs e = e := by decide

theorem tag_dropTrailWs : ∀ t ∈ tagList, dropTrailWs t = t := by decide

theorem ent_ne_nil : ∀ e ∈ entityList, e ≠ [] := by decide

theorem tag_ne_nil : ∀ t ∈ tagList, t ≠ [] := by decide

theorem dropTrailWs_safe {flag : Bool} {l : List Char} (h : Safe flag l) :
    Safe flag (dropTrailWs l) := by
  induction h with
  | nil => exact .nil
  | chr c r hc t ih =>
      rw [dropTrailWs]
      cases hd : dropTrailWs r with
      | nil =>
          by_cases hws : isSpaceJS c = true
          · rw [if_pos (by simp [hws])]; exact .nil
          · rw [if_neg (by simp [hws])]
            exact .chr c [] hc .nil
      | cons q qs => exact .chr c _ hc (hd ▸ ih)
  | ent e r he t ih =>
      rw [dropTrailWs_append]
      by_cases hr : dropTrailWs r = []
      · rw [if_pos hr, ent_dropTrailWs e he]
        exact safe_ent_only he
      · rw [if_neg hr]
        exact .ent e _ he ih
  | tag t r ht tr ih =>
      rw [dropTrailWs_append]
      by_cases hr : dropTrailWs r = []
      · rw [if_pos hr, tag_dropTrailWs t ht]
        exact safe_tag_only ht
      · rw [if_neg hr]
        exact .tag t _ ht ih
  | anch u r hu hw t ihu ihr =>
      have hshape : aopenChars ++ u ++ amidChars ++ r =
          (aopenChars ++ u ++ amidChars) ++ r := by
        simp [List.append_assoc]
      have hamid_ne : amidChars ≠ [] := by decide
      have hdu : dropTrailWs (u ++ amidChars) = u ++ amidChars := by
        rw [dropTrailWs_append,
          show dropTrailWs amidChars = amidChars from by decide,
          if_neg hamid_ne]
      have hchunk : dropTrailWs (aopenChars ++ u ++ amidChars) =
          aopenChars ++ u ++ amidChars := by
        rw [show aopenChars ++ u ++ amidChars =
            aopenChars ++ (u ++ amidChars) from by simp [List.append_assoc],
          dropTrailWs_append, hdu, if_neg (by simp [hamid_ne])]
      rw [hshape, dropTrailWs_append]
      by_cases hr : dropTrailWs r = []
      · rw [if_pos hr, hchunk]
        have h2 := Safe.anch u [] hu hw Safe.nil
        simpa using h2
      · rw [if_neg hr]
        have h2 := Safe.anch u (dropTrailWs r) hu hw ihr
        simpa [List.append_assoc] using h2

theorem jsTrim_safe {flag : Bool} {l : List Char} (h : Safe flag l) :
    Safe flag (jsTrim l) :=
  dropTrailWs_safe (safe_dropWhile isSpaceJS (by decide) (by decide) h)

/-! ### The full pipeline produces a safe decomposition -/

theorem fmtList_safe (l : List Char) : Safe true (fmtList l) := by
  rw [fmtList]
  exact jsTrim_safe (collapseWs_safe (paragraphPass_safe (replaceLinks_safe
    (olWrapPass_safe (numberItemsPass_safe (ulWrapPass_safe
      (bulletItemsPass_safe (brPass_safe (codeBlockPass_safe
        (inlineCodePass_safe (italicPass_safe (boldPass_safe
          (h1Pass_safe (h2Pass_safe (h3Pass_safe
            (escapeAll_safe l))))))))))))))))

/-! ### No `<script` can occur in the output

Every `'<'` in a safe decomposition starts a fixed tag or the anchor
opening, and none of those continues with `sc`, so the scanner for the
substring `<script` never finds a match. -/

theorem script_pat_eq : ("<script".toList : List Char) = '<' :: "script".toList :=
  rfl

theorem sc_not_tag : ∀ t ∈ tagList, "<sc".toList.isPrefixOf t = false := by
  decide

theorem findSub_none_of_not_isPrefixOf {pat : List Char} {c : Char}
    {cs : List Char} (h1 : pat.isPrefixOf (c :: cs) = false)
    (h2 : findSub pat cs = none) : findSub pat (c :: cs) = none := by
  rw [findSub, h1]
  simp [h2]

theorem script_free_append {flag : Bool} {l : List Char} (h : Safe flag l) :
    ∀ y, findSub "<script".toList y = none →
      findSub "<script".toList (l ++ y) = none := by
  induction h with
  | nil => intro y hy; simpa using hy
  | chr c r hc t ih =>
      intro y hy
      have hcn : c ≠ '<' := by
        intro hcc; rw [hcc] at hc; simp [specials] at hc
      rw [List.cons_append]
      exact findSub_none_of_not_isPrefixOf
        (not_isPrefixOf_cons script_pat_eq hcn) (ih y hy)
  | ent e r he t ih =>
      intro y hy
      rw [List.append_assoc, findSub_append script_pat_eq
        (fun c hc hcc => lt_not_in_ent e he (by rw [← hcc]; exact hc)),
        ih y hy]
      rfl
  | tag t r ht tr ih =>
      intro y hy
      obtain ⟨t', hteq⟩ := tag_eq_cons ht
      have ht' : ∀ c ∈ t', c ≠ '<' := by
        intro c hc hcc
        exact lt_not_in_tag_tail t ht (by rw [hteq, ← hcc]; exact hc)
      have hnp : "<script".toList.isPrefixOf (t ++ (r ++ y)) = false := by
        by_cases hp : "<script".toList.isPrefixOf (t ++ (r ++ y)) = true
        · have h3 := isPrefixOf_take hp (tag_len_ge3 t ht) (by decide)
          rw [show ("<script".toList.take 3 : List Char) = "<sc".toList from
            rfl] at h3
          rw [sc_not_tag t ht] at h3
          cases h3
        · exact Bool.eq_false_iff.mpr hp
      rw [List.append_assoc, hteq, List.cons_append]
      refine findSub_none_of_not_isPrefixOf ?_ ?_
      · rw [← List.cons_append, ← hteq]
        exact hnp
      · rw [findSub_append script_pat_eq ht', ih y hy]
        rfl
  | anch u r hu hw t ihu ihr =>
      intro y hy
      have hy2 : findSub "<script".toList (amidChars ++ (r ++ y)) = none := by
        rw [findSub_append script_pat_eq
          (by intro c hc hcc
              exact (show ('<' : Char) ∉ amidChars by decide)
                (by rw [← hcc]; exact hc)),
          ihr y hy]
        rfl
      have hy3 : findSub "<script".toList (u ++ (amidChars ++ (r ++ y))) =
          none := ihu _ hy2
      have hrear : aopenChars ++ u ++ amidChars ++ r ++ y =
          '<' :: ("a href=\"".toList ++ (u ++ (amidChars ++ (r ++ y)))) := by
        rw [aopen_eq_cons]
        simp [List.append_assoc]
      rw [hrear]
      refine findSub_none_of_not_isPrefixOf ?_ ?_
      · rw [show '<' :: ("a href=\"".toList ++ (u ++ (amidChars ++ (r ++ y)))) =
            aopenChars ++ (u ++ (amidChars ++ (r ++ y))) from by
          rw [aopen_eq_cons]; rfl]
        by_cases hp : "<script".toList.isPrefixOf
            (aopenChars ++ (u ++ (amidChars ++ (r ++ y)))) = true
        · have h3 := isPrefixOf_take hp
            (show 3 ≤ aopenChars.length by decide) (by decide)
          rw [show ("<script".toList.take 3 : List Char) = "<sc".toList from
            rfl] at h3
          rw [show ("<sc".toList.isPrefixOf aopenChars) = false from by
            decide] at h3
          cases h3
        · exact Bool.eq_false_iff.mpr hp
      · rw [findSub_append script_pat_eq
          (show ∀ c ∈ ("a href=\"".toList : List Char), c ≠ '<' from by
            decide), hy3]
        rfl

theorem script_free {flag : Bool} {l : List Char} (h : Safe flag l) :
    findSub "<script".toList l = none := by
  have h2 := script_free_append h [] (by rw [findSub]; rfl)
  simpa using h2

/-! ## Controller lemmas -/

theorem submitHandler_empty_eq (st : ChatState) (outcome : FetchResult)
    (h : jsTrimStr st.inputValue = "") :
    submitHandler st outcome = ⟨st, none, []⟩ := by
  have hip : issuePhase st = (st, none) := by
    rw [issuePhase, if_pos h]
  simp [submitHandler, hip]

theorem submitHandler_nonempty_eq (st : ChatState) (outcome : FetchResult)
    (h : jsTrimStr st.inputValue ≠ "") :
    submitHandler st outcome =
      ⟨{ st with
          log := st.log ++ [⟨Sender.user, jsTrimStr st.inputValue, false⟩,
            ⟨Sender.bot, (outcomeText outcome).1, false⟩]
          inputValue := ""
          inputDisabled := false
          sendDisabled := false
          focused := true },
        some (mkRequest (jsTrimStr st.inputValue)),
        (outcomeText outcome).2⟩ := by
  have hip : issuePhase st =
      ({ st with
          log := st.log ++ [⟨Sender.user, jsTrimStr st.inputValue, false⟩,
            ⟨Sender.bot, "Thinking...", true⟩]
          inputValue := ""
          inputDisabled := true
          sendDisabled := true },
       some (mkRequest (jsTrimStr st.inputValue))) := by
    rw [issuePhase, if_neg h]
  have hdl : (st.log ++ [ChatMsg.mk Sender.user (jsTrimStr st.inputValue) false,
      ChatMsg.mk Sender.bot "Thinking..." true]).dropLast =
      st.log ++ [ChatMsg.mk Sender.user (jsTrimStr st.inputValue) false] := by
    rw [show st.log ++ [ChatMsg.mk Sender.user (jsTrimStr st.inputValue) false,
        ChatMsg.mk Sender.bot "Thinking..." true] =
        (st.log ++ [ChatMsg.mk Sender.user (jsTrimStr st.inputValue) false]) ++
          [ChatMsg.mk Sender.bot "Thinking..." true] from by simp,
      List.dropLast_concat]
  simp [submitHandler, hip, resolvePhase, hdl]

theorem getLast_two {l : List ChatMsg} {a b : ChatMsg} :
    (l ++ [a, b]).getLast? = some b := by
  rw [show l ++ [a, b] = (l ++ [a]) ++ [b] from by simp, List.getLast?_concat]

def isTransportFailure : FetchResult → Bool
  | .networkError _ => true
  | .httpErr _ _ => true
  | .success none => true
  | .success (some _) => false

/-- C4: For every transport failure (network rejection, JSON parse
failure, or non-2xx status), the pending bot entry is set to exactly the
fixed literal `Failed to get response from server.`; for a non-2xx
response the computed `errorMessage` goes only to the developer log. -/
theorem c4_transport_failure_fixed_literal (st : ChatState)
    (outcome : FetchResult) (h : jsTrimStr st.inputValue ≠ "")
    (hf : isTransportFailure outcome = true) :
    ((submitHandler st outcome).state.log.getLast?).map ChatMsg.text =
      some failLiteral ∧
    (∀ status body, outcome = FetchResult.httpErr status body →
      ("Error sending message to API: " ++ errorMessageFor status body) ∈
        (submitHandler st outcome).consoleLogs) := by
  rw [submitHandler_nonempty_eq st outcome h]
  constructor
  · simp only [getLast_two, Option.map_some']
    cases outcome with
    | networkError r => rfl
    | httpErr status body => rfl
    | success body =>
        cases body with
        | none => rfl
        | some b => simp [isTransportFailure] at hf
  · intro status body heq
    subst heq
    cases body with
    | none => simp [outcomeText]
    | some b => simp [outcomeText]

theorem c4_witness :
    ((submitHandler ⟨[], false, false, "hi", false⟩
        (FetchResult.httpErr 500 none)).state.log.getLast?).map ChatMsg.text =
      some failLiteral ∧
    ("Error sending message to API: " ++ errorMessageFor 500 none) ∈
      (submitHandler ⟨[], false, false, "hi", false⟩
        (FetchResult.httpErr 500 none)).consoleLogs :=
  ⟨(c4_transport_failure_fixed_literal ⟨[], false, false, "hi", false⟩
      (FetchResult.httpErr 500 none) (by decide) (by decide)).1,
   (c4_transport_failure_fixed_literal ⟨[], false, false, "hi", false⟩
      (FetchResult.httpErr 500 none) (by decide) (by decide)).2 500 none rfl⟩

/-- C5: For every 2xx response whose JSON body has no `result` field the
pending bot entry is set to exactly `Sorry, no response received.`, and on
every outcome the two controls are re-enabled and focus is restored. -/
theorem c5_missing_result_and_cleanup (st : ChatState)
    (h : jsTrimStr st.inputValue ≠ "") :
    (((submitHandler st (FetchResult.success (some ⟨none⟩))).state.log.getLast?).map
        ChatMsg.text = some sorryLiteral) ∧
    (∀ outcome : FetchResult,
      (submitHandler st outcome).state.inputDisabled = false ∧
      (submitHandler st outcome).state.sendDisabled = false ∧
      (submitHandler st outcome).state.focused = true) := by
  constructor
  · rw [submitHandler_nonempty_eq st _ h]
    simp only [getLast_two, Option.map_some']
    rfl
  · intro outcome
    rw [submitHandler_nonempty_eq st outcome h]
    exact ⟨rfl, rfl, rfl⟩

theorem c5_witness :
    (((submitHandler ⟨[], false, false, "hi", false⟩
        (FetchResult.success (some ⟨none⟩))).state.log.getLast?).map
        ChatMsg.text = some sorryLiteral) ∧
    (submitHandler ⟨[], false, false, "hi", false⟩
        (FetchResult.networkError "boom")).state.inputDisabled = false :=
  ⟨(c5_missing_result_and_cleanup _ (by decide)).1,
   ((c5_missing_result_and_cleanup _ (by decide)).2
     (FetchResult.networkError "boom")).1⟩

/-- C7: Submitting text whose trimmed value is empty is a no-op: the state,
including the log and both disabled flags, is unchanged and no request is
issued. -/
theorem c7_empty_submit_noop (st : ChatState) (outcome : FetchResult)
    (h : jsTrimStr st.inputValue = "") :
    (submitHandler st outcome).state = st ∧
    (submitHandler st outcome).request = none ∧
    (submitHandler st outcome).consoleLogs = [] := by
  rw [submitHandler_empty_eq st outcome h]
  exact ⟨rfl, rfl, rfl⟩

theorem c7_witness :
    (submitHandler ⟨[], false, false, "   ", false⟩
        (FetchResult.success none)).state =
      (⟨[], false, false, "   ", false⟩ : ChatState) ∧
    (submitHandler ⟨[], false, false, "   ", false⟩
        (FetchResult.success none)).request = none :=
  ⟨(c7_empty_submit_noop _ _ (by decide)).1,
   (c7_empty_submit_noop _ _ (by decide)).2.1⟩

/-- C8: Every non-empty submission issues exactly one request: a POST to
`/api/chat` with content type `application/json` whose body carries a
single-element messages array `[(user, trimmed text)]` — no history. -/
theorem c8_request_shape (st : ChatState) (outcome : FetchResult)
    (h : jsTrimStr st.inputValue ≠ "") :
    (submitHandler st outcome).request =
      some { method := "POST", path := "/api/chat"
             contentType := "application/json"
             messages := [("user", jsTrimStr st.inputValue)] } ∧
    (∀ r, (submitHandler st outcome).request = some r →
      r.messages.length = 1) := by
  rw [submitHandler_nonempty_eq st outcome h]
  refine ⟨rfl, ?_⟩
  intro r hr
  simp only [Option.some.injEq] at hr
  rw [← hr]
  rfl

theorem c8_witness :
    (submitHandler ⟨[], false, false, " ping ", false⟩
        (FetchResult.success none)).request =
      some { method := "POST", path := "/api/chat"
             contentType := "application/json"
             messages := [("user", "ping")] } := by
  have h2 := (c8_request_shape ⟨[], false, false, " ping ", false⟩
    (FetchResult.success none) (by decide)).1
  rw [h2]
  rfl

/-- C10: A 2xx response whose body has `result` present but equal to the
empty string (falsy in JavaScript) is treated like a missing result: the
pending bot entry becomes `Sorry, no response received.`. -/
theorem c10_empty_result_falsy (st : ChatState)
    (h : jsTrimStr st.inputValue ≠ "") :
    (((submitHandler st
        (FetchResult.success (some ⟨some ""⟩))).state.log.getLast?).map
      ChatMsg.text) = some sorryLiteral := by
  rw [submitHandler_nonempty_eq st _ h]
  simp only [getLast_two, Option.map_some']
  rfl

theorem c10_witness :
    (((submitHandler ⟨[], false, false, "hi", false⟩
        (FetchResult.success (some ⟨some ""⟩))).state.log.getLast?).map
      ChatMsg.text) = some sorryLiteral :=
  c10_empty_result_falsy _ (by decide)

/-! ## Controller invariant -/

theorem pendingCount_append (a b : List ChatMsg) :
    pendingCount (a ++ b) = pendingCount a + pendingCount b := by
  simp [pendingCount, List.filter_append]

theorem pendingCount_single_true {m : ChatMsg} (hm : m.pending = true) :
    pendingCount [m] = 1 := by
  simp [pendingCount, List.filter_cons, hm]

theorem pendingCount_single_false {m : ChatMsg} (hm : m.pending = false) :
    pendingCount [m] = 0 := by
  simp [pendingCount, List.filter_cons, hm]

theorem reach_inv (st : ChatState) (h : Reach st) :
    (st.inputDisabled = false ∧ pendingCount st.log = 0) ∨
    (st.inputDisabled = true ∧ ∃ l₀ m, st.log = l₀ ++ [m] ∧
      m.pending = true ∧ pendingCount l₀ = 0) := by
  induction h with
  | init => exact Or.inl ⟨rfl, rfl⟩
  | step hr hstep ih =>
      rename_i s1 s2
      cases hstep with
      | issue input hdis =>
          rcases ih with ⟨hd, hp⟩ | ⟨hd, _⟩
          · by_cases he : jsTrimStr input = ""
            · left
              constructor
              · simp [issuePhase, he, hd]
              · simpa [issuePhase, he] using hp
            · right
              constructor
              · simp [issuePhase, he]
              · refine ⟨s1.log ++
                  [ChatMsg.mk Sender.user (jsTrimStr input) false],
                  ChatMsg.mk Sender.bot "Thinking..." true, ?_, rfl, ?_⟩
                · simp [issuePhase, he]
                · rw [pendingCount_append, hp,
                    pendingCount_single_false rfl]
          · rw [hd] at hdis; cases hdis
      | resolve outcome hdis =>
          rcases ih with ⟨hd, _⟩ | ⟨hd, l₀, m, hlog, hm, hcnt⟩
          · rw [hd] at hdis; cases hdis
          · left
            refine ⟨rfl, ?_⟩
            show pendingCount (s1.log.dropLast ++
              [ChatMsg.mk Sender.bot (outcomeText outcome).1 false]) = 0
            rw [hlog, List.dropLast_concat, pendingCount_append, hcnt,
              pendingCount_single_false rfl]

/-- C6: In every reachable state of the controller at most one log entry
is pending, and from the awaiting state (controls disabled) every step
returns to the idle state — a submission while a request is outstanding
is impossible because a disabled input cannot dispatch a submit event,
which the step relation's guard encodes. -/
theorem c6_single_pending_no_self_loop :
    (∀ st : ChatState, Reach st → pendingCount st.log ≤ 1) ∧
    (∀ st st' : ChatState, st.inputDisabled = true → CtrlStep st st' →
      st'.inputDisabled = false) := by
  constructor
  · intro st h
    rcases reach_inv st h with ⟨_, hp⟩ | ⟨_, l₀, m, hlog, hm, hcnt⟩
    · simp [hp]
    · rw [hlog, pendingCount_append, hcnt, pendingCount_single_true hm]
  · intro st st' hdis hstep
    cases hstep with
    | issue input h2 => rw [hdis] at h2; cases h2
    | resolve outcome h2 => rfl

theorem c6_witness :
    pendingCount ((issuePhase
      { initState with inputValue := "hi" }).1).log ≤ 1 :=
  c6_single_pending_no_self_loop.1 _
    (Reach.step Reach.init (CtrlStep.issue initState "hi" rfl))

/-! ## Formatter claims -/

theorem toList_asString (l : List Char) : (l.asString).toList = l := rfl

/-- C1: For every input string `formatMessageText` terminates (it is a
total function) and its output decomposes into plain characters that are
never a raw `&`, `<` or `>`, the entities `&amp;`/`&lt;`/`&gt;` inserted
by the escaping stage, and the fixed tags and anchor fragments the
formatter itself generates (the `Safe` decomposition); consequently the
output never contains the substring `<script`.  The escaping of the three
HTML metacharacters before any markup substitution is what establishes
the decomposition (`escapeAll_safe`). -/
theorem c1_format_safe_no_script (s : String) :
    Safe true (formatMessageText s).toList ∧
    findSub "<script".toList (formatMessageText s).toList = none := by
  rw [formatMessageText]
  by_cases hs : s = ""
  · rw [if_pos hs]
    exact ⟨Safe.nil, rfl⟩
  · rw [if_neg hs, toList_asString]
    exact ⟨fmtList_safe _, script_free (fmtList_safe _)⟩

/-- Number of start positions at which `pat` occurs in the list. -/
def countSub (pat : List Char) : List Char → Nat
  | [] => 0
  | c :: cs => (if pat.isPrefixOf (c :: cs) then 1 else 0) + countSub pat cs

set_option maxRecDepth 8000
set_option maxHeartbeats 2000000

/-- C2 counterexample: the claim asserts that formatting `"- a\n- b"`
produces two list-item elements, but the newline has already become
`<br>` when the list stage runs, so the whole input becomes a single
list item — the output contains exactly one `<li>`, not two. -/
theorem c2_counterexample :
    countSub "<li>".toList (formatMessageText "- a\n- b").toList = 1 := by
  decide

/-- C2 amended: formatting `"- a\n- b"` yields one list item containing
`a<br>- b` (the newline became `<br>` before list processing merged both
bullets), wrapped in a bulleted-list container and additionally in a
numbered-list container because both wrap passes run unconditionally over
any `<li>...</li>` span. -/
theorem c2_amended_single_item_double_wrap :
    formatMessageText "- a\n- b" = "<ul><ol><li>a<br>- b</li></ol></ul>" := by
  decide

/-- C3 counterexample: the claim asserts the heading line is not wrapped
in a paragraph element, but the paragraph stage's exclusion list does not
contain heading tags, so the output of `format "# Title"` does contain a
paragraph tag. -/
theorem c3_counterexample :
    (findSub "<p>".toList (formatMessageText "# Title").toList).isSome =
      true := by
  decide

/-- C3 amended: formatting `"# Title"` produces a level-1 heading
containing `Title`, and the paragraph-wrapping stage additionally wraps
it in a paragraph element because its negative lookahead lists only
`<ul>`, `<ol>`, `<li>`, `<pre>`, `<code>`, `<strong>`, `<em>` and `<a>`,
none of which matches `<h1>`. -/
theorem c3_amended_heading_para_wrapped :
    formatMessageText "# Title" = "<p><h1>Title</h1></p>" := by
  decide

/-! ## Link claim -/

theorem linkGo_nil : ∀ fuel, linkGo fuel [] = [] := by
  intro fuel
  cases fuel with
  | zero => rfl
  | succ n => rw [linkGo]; rfl

theorem findLink_none_of_no_lb {l : List Char} (h : '[' ∉ l) :
    findLink l = none := by
  induction l with
  | nil => rfl
  | cons a as ih =>
      have ha : ¬ a = '[' := fun hcc => h (by simp [hcc])
      rw [findLink, if_neg ha, ih (fun hc => h (by simp [hc]))]
      rfl

/-- Whether the URL would be accepted by `https?:\/\/[^\s)]+`: it starts
with one of the two schemes and at least one more character follows. -/
def schemeOkB (url : List Char) : Bool :=
  ("http://".toList.isPrefixOf url && decide (7 < url.length)) ||
  ("https://".toList.isPrefixOf url && decide (8 < url.length))

theorem isPrefixOf_append_singleton {p x : List Char} {c : Char}
    (h : p.isPrefixOf (x ++ [c]) = true) :
    p.isPrefixOf x = true ∨ x ++ [c] = p := by
  obtain ⟨t, ht⟩ := isPrefixOf_exists.mp h
  rcases t with _ | ⟨t0, ts⟩
  · right; simpa using ht
  · left
    have hlen : p.length ≤ x.length := by
      have h2 := congrArg List.length ht
      simp only [List.length_append, List.length_cons, List.length_nil] at h2
      omega
    apply isPrefixOf_exists.mpr
    refine ⟨x.drop p.length, ?_⟩
    conv_lhs => rw [← List.take_append_drop p.length x]
    have h3 : x.take p.length = p := by
      have h4 := congrArg (List.take p.length) ht
      rwa [take_append_le hlen, take_append_le (Nat.le_refl _),
        List.take_of_length_le (Nat.le_refl _)] at h4
    rw [h3]

theorem takeWhile_label {label : List Char} (hl2 : ']' ∉ label)
    (z : List Char) :
    (label ++ ']' :: z).takeWhile (fun c => decide (c ≠ ']')) = label := by
  rw [List.takeWhile_append_of_pos (by
    intro a ha
    simp only [decide_eq_true_eq]
    intro hcc
    exact hl2 (by rw [← hcc]; exact ha)),
    List.takeWhile_cons_of_neg (by simp)]
  simp

theorem dropWhile_label {label : List Char} (hl2 : ']' ∉ label)
    (z : List Char) :
    (label ++ ']' :: z).dropWhile (fun c => decide (c ≠ ']')) = ']' :: z := by
  rw [List.dropWhile_append_of_pos (by
    intro a ha
    simp only [decide_eq_true_eq]
    intro hcc
    exact hl2 (by rw [← hcc]; exact ha)),
    List.dropWhile_cons_of_neg (by simp)]

theorem parseLink_span_pos (label url u scheme : List Char) (k : Nat)
    (hl1 : label ≠ []) (hl2 : ']' ∉ label)
    (hu : ∀ c ∈ url, isUrlChar c = true)
    (hs : (scheme = "http://".toList ∧ k = 7) ∨
          (scheme = "https://".toList ∧ k = 8))
    (hurl : url = scheme ++ u) (hune : u ≠ []) :
    parseLink (label ++ ']' :: '(' :: (url ++ [')'])) =
      some (label, url, []) := by
  have hu_in : ∀ c ∈ u, isUrlChar c = true := by
    intro c hc
    exact hu c (by rw [hurl]; exact List.mem_append_right _ hc)
  have hdropk : (url ++ [')']).drop k = u ++ [')'] := by
    rw [hurl, List.append_assoc]
    rcases hs with ⟨rfl, rfl⟩ | ⟨rfl, rfl⟩ <;>
      exact List.drop_left' (by decide)
  have htakek : (url ++ [')']).take k = scheme := by
    rw [hurl, List.append_assoc]
    rcases hs with ⟨rfl, rfl⟩ | ⟨rfl, rfl⟩ <;>
      exact List.take_left' (by decide)
  have htw : (u ++ [')']).takeWhile isUrlChar = u := by
    rw [List.takeWhile_append_of_pos hu_in,
      List.takeWhile_cons_of_neg (by decide)]
    simp
  have hdw : (u ++ [')']).dropWhile isUrlChar = [')'] := by
    rw [List.dropWhile_append_of_pos hu_in,
      List.dropWhile_cons_of_neg (by decide)]
  rw [parseLink, takeWhile_label hl2, dropWhile_label hl2,
    if_neg (show ¬ (label.isEmpty = true) by simpa using hl1)]
  show (match (if "http://".toList.isPrefixOf (url ++ [')']) = true then some 7
      else if "https://".toList.isPrefixOf (url ++ [')']) = true then some 8
      else none : Option Nat) with
    | none => none
    | some k =>
      if (((url ++ [')']).drop k).takeWhile isUrlChar).isEmpty = true then none
      else
        match ((url ++ [')']).drop k).dropWhile isUrlChar with
        | ')' :: r6 => some (label,
            (url ++ [')']).take k ++ ((url ++ [')']).drop k).takeWhile isUrlChar,
            r6)
        | _ => none) = some (label, url, [])
  have hke : ∀ m : Nat, m = k →
      (if (((url ++ [')']).drop m).takeWhile isUrlChar).isEmpty = true then
        none
      else
        match ((url ++ [')']).drop m).dropWhile isUrlChar with
        | ')' :: r6 => some (label,
            (url ++ [')']).take m ++
              ((url ++ [')']).drop m).takeWhile isUrlChar, r6)
        | _ => none) = some (label, url, []) := by
    intro m hm
    subst hm
    rw [hdropk, htw, hdw, htakek,
      if_neg (show ¬ (u.isEmpty = true) by simpa using hune)]
    show some (label, scheme ++ u, []) = some (label, url, [])
    rw [← hurl]
  rcases hs with ⟨rfl, hk⟩ | ⟨rfl, hk⟩
  · rw [if_pos (show "http://".toList.isPrefixOf (url ++ [')']) = true by
      apply isPrefixOf_exists.mpr
      exact ⟨u ++ [')'], by rw [hurl, List.append_assoc]⟩)]
    exact hke 7 hk.symm
  · have hnot7 : "http://".toList.isPrefixOf (url ++ [')']) = false := by
      rw [hurl, List.append_assoc]
      rfl
    rw [hnot7]
    show (match (if False then some 7
        else if "https://".toList.isPrefixOf (url ++ [')']) = true then some 8
        else none : Option Nat) with
      | none => none
      | some k =>
        if (((url ++ [')']).drop k).takeWhile isUrlChar).isEmpty = true then
          none
        else
          match ((url ++ [')']).drop k).dropWhile isUrlChar with
          | ')' :: r6 => some (label,
              (url ++ [')']).take k ++
                ((url ++ [')']).drop k).takeWhile isUrlChar, r6)
          | _ => none) = some (label, url, [])
    rw [if_neg (by exact fun h => h),
      if_pos (show "https://".toList.isPrefixOf (url ++ [')']) = true by
        apply isPrefixOf_exists.mpr
        exact ⟨u ++ [')'], by rw [hurl, List.append_assoc]⟩)]
    exact hke 8 hk.symm

theorem prefix_len_eq {p x : List Char} (h : p.isPrefixOf x = true)
    (hle : x.length ≤ p.length) : x = p := by
  obtain ⟨t, ht⟩ := isPrefixOf_exists.mp h
  have h2 := congrArg List.length ht
  simp only [List.length_append] at h2
  have ht0 : t = [] := List.length_eq_zero.mp (by omega)
  subst ht0
  simpa using ht

theorem concat_ne_of_last {x p : List Char} {c : Char}
    (h : p.getLast? ≠ some c) : x ++ [c] ≠ p := by
  intro he
  have hx := congrArg List.getLast? he
  rw [List.getLast?_concat] at hx
  exact h hx.symm

theorem parseLink_span_neg (label url : List Char)
    (hl2 : ']' ∉ label)
    (hs : schemeOkB url = false) :
    parseLink (label ++ ']' :: '(' :: (url ++ [')'])) = none := by
  by_cases hle : label.isEmpty = true
  · rw [parseLink, takeWhile_label hl2, if_pos hle]
  · rw [parseLink, takeWhile_label hl2, dropWhile_label hl2, if_neg hle]
    show (match (if "http://".toList.isPrefixOf (url ++ [')']) = true then some 7
        else if "https://".toList.isPrefixOf (url ++ [')']) = true then some 8
        else none : Option Nat) with
      | none => none
      | some k =>
        if (((url ++ [')']).drop k).takeWhile isUrlChar).isEmpty = true then
          none
        else
          match ((url ++ [')']).drop k).dropWhile isUrlChar with
          | ')' :: r6 => some (label,
              (url ++ [')']).take k ++
                ((url ++ [')']).drop k).takeWhile isUrlChar, r6)
          | _ => none) = none
    cases hp7 : "http://".toList.isPrefixOf (url ++ [')']) with
    | true =>
      rcases isPrefixOf_append_singleton hp7 with hpre | heq
      · have hlt : ¬ (7 < url.length) := by
          intro hgt
          have hok : schemeOkB url = true := by
            rw [schemeOkB, hpre, decide_eq_true hgt]
            simp
          rw [hs] at hok
          exact Bool.false_ne_true hok
        have h7 : url = "http://".toList := by
          apply prefix_len_eq hpre
          have h7len : ("http://".toList).length = 7 := by decide
          rw [h7len]
          omega
        subst h7
        rfl
      · exact absurd heq (concat_ne_of_last (by decide))
    | false =>
      cases hp8 : "https://".toList.isPrefixOf (url ++ [')']) with
      | true =>
        rcases isPrefixOf_append_singleton hp8 with hpre | heq
        · have hlt : ¬ (8 < url.length) := by
            intro hgt
            have hok : schemeOkB url = true := by
              rw [schemeOkB, hpre, decide_eq_true hgt]
              simp only [Bool.or_eq_true]
              exact Or.inr rfl
            rw [hs] at hok
            exact Bool.false_ne_true hok
          have h8 : url = "https://".toList := by
            apply prefix_len_eq hpre
            have h8len : ("https://".toList).length = 8 := by decide
            rw [h8len]
            omega
          subst h8
          rfl
        · exact absurd heq (concat_ne_of_last (by decide))
      | false =>
        rfl

/-- C9 (corrected): the link pass turns the span `[label](url)` into the
anchor `<a href="url" target="_blank" rel="noopener noreferrer">label</a>`
exactly when `url` starts with `http://` or `https://` AND at least one
further character follows the scheme (the regex demands `[^\s)]+` after
`https?:\/\/`); otherwise the span is left untransformed.  The side
conditions say the label is nonempty without brackets and the url is made
of characters the regex url class accepts. -/
theorem c9_anchor_iff (label url : List Char)
    (hl1 : label ≠ []) (hl2 : ']' ∉ label) (hl3 : '[' ∉ label)
    (hu : ∀ c ∈ url, isUrlChar c = true) (hu2 : '[' ∉ url) :
    (schemeOkB url = true →
      replaceLinks ('[' :: label ++ ']' :: '(' :: (url ++ [')'])) =
        anchorFor label url) ∧
    (schemeOkB url = false →
      replaceLinks ('[' :: label ++ ']' :: '(' :: (url ++ [')'])) =
        '[' :: label ++ ']' :: '(' :: (url ++ [')'])) := by
  constructor
  · intro hsok
    rw [schemeOkB] at hsok
    simp only [Bool.or_eq_true, Bool.and_eq_true, decide_eq_true_eq] at hsok
    obtain ⟨scheme, u, k, hsch, hurl, hune⟩ :
        ∃ scheme u k,
          ((scheme = "http://".toList ∧ k = 7) ∨
           (scheme = "https://".toList ∧ k = 8)) ∧
          url = scheme ++ u ∧ u ≠ [] := by
      rcases hsok with ⟨hp, hlen⟩ | ⟨hp, hlen⟩
      · obtain ⟨t, ht⟩ := isPrefixOf_exists.mp hp
        refine ⟨"http://".toList, t, 7, Or.inl ⟨rfl, rfl⟩, ht, fun h0 => ?_⟩
        have h7 : url.length = 7 := by rw [ht, h0]; decide
        omega
      · obtain ⟨t, ht⟩ := isPrefixOf_exists.mp hp
        refine ⟨"https://".toList, t, 8, Or.inr ⟨rfl, rfl⟩, ht, fun h0 => ?_⟩
        have h8 : url.length = 8 := by rw [ht, h0]; decide
        omega
    have hparse := parseLink_span_pos label url u scheme k hl1 hl2 hu hsch
      hurl hune
    have hfind : findLink ('[' :: (label ++ ']' :: '(' :: (url ++ [')']))) =
        some ([], label, url, []) := by
      rw [findLink, if_pos rfl, hparse]
    show replaceLinks ('[' :: (label ++ ']' :: '(' :: (url ++ [')']))) =
      anchorFor label url
    rw [replaceLinks, List.length_cons, linkGo, hfind]
    show [] ++ anchorFor label url ++
      linkGo (label ++ ']' :: '(' :: (url ++ [')'])).length [] =
      anchorFor label url
    rw [linkGo_nil]
    simp
  · intro hsno
    have hparse := parseLink_span_neg label url hl2 hsno
    have hlb : '[' ∉ (label ++ ']' :: '(' :: (url ++ [')'])) := by
      intro hmem
      rcases List.mem_append.mp hmem with h | h
      · exact hl3 h
      · rcases List.mem_cons.mp h with h | h
        · exact absurd h (by decide)
        · rcases List.mem_cons.mp h with h | h
          · exact absurd h (by decide)
          · rcases List.mem_append.mp h with h | h
            · exact hu2 h
            · rcases List.mem_cons.mp h with h | h
              · exact absurd h (by decide)
              · exact absurd h (List.not_mem_nil _)
    have hfind : findLink ('[' :: (label ++ ']' :: '(' :: (url ++ [')']))) =
        none := by
      rw [findLink, if_pos rfl, hparse, findLink_none_of_no_lb hlb]
      rfl
    show replaceLinks ('[' :: (label ++ ']' :: '(' :: (url ++ [')']))) =
      '[' :: (label ++ ']' :: '(' :: (url ++ [')']))
    rw [replaceLinks, List.length_cons, linkGo, hfind]

/-- C9 counterexample to the literal claim: the url `http://` does begin
with `http://`, yet the formatter does not turn `[x](http://)` into an
anchor (the regex needs at least one url character after the scheme); the
span survives verbatim inside the paragraph wrapper. -/
theorem c9_counterexample :
    "http://".toList.isPrefixOf ("http://".toList) = true ∧
    fmtList "[x](http://)".toList = "<p>[x](http://)</p>".toList := by
  constructor
  · decide
  · decide

/-- C9 witness: on label `x` and url `http://a` the link pass produces
exactly the anchor element. -/
theorem c9_witness :
    replaceLinks ('[' :: "x".toList ++ ']' :: '(' :: ("http://a".toList ++ [')'])) =
      anchorFor "x".toList "http://a".toList :=
  (c9_anchor_iff "x".toList "http://a".toList (by decide) (by decide)
    (by decide) (by decide) (by decide)).1 (by decide)
